import Mathlib

/-!
# medchain: the access-right contract and the query contract

A shallow embedding of `admin/accessright.go` and `contract/contract.go`.

Conventions of the embedding

* Go byte strings (`string` and `[]byte`) are finite sequences compared by
  content; both are modelled by `String`, and the conversion `string(b)` is the
  identity.  A nil slice and an empty slice both have length 0 and are modelled
  by the empty value (`""` for bytes, `[]` for slices of structs).
* A Go `error` is `Option Error`; `none` is `nil`.
* A call either returns its three results or panics (`Outcome`).
* A method with a pointer receiver takes the receiver and returns the receiver
  as the call leaves it, next to the outcome.
* The collaborators whose code is outside the repository (the protobuf codec
  and `Instruction.DeriveID`) are the fields of `Externals`.
-/

set_option autoImplicit false

namespace Medchain

/-! ## Data model -/

/-- Go `[]byte`. -/
abbrev Bytes := String

/-- A byzcoin instance address (`byzcoin.InstanceID`); `Slice()` is the identity. -/
abbrev InstanceID := Bytes

/-- An ownership-document reference (`darc.ID`). -/
abbrev DarcID := Bytes

/-- Go errors: `xerrors.New(text)`, `xerrors.Errorf(format, arg)` with a non-nil
error argument, and `xerrors.Errorf(format, nil)`. Errors of the collaborators
are arbitrary values of this type. -/
inductive Error where
  | new (text : String)
  | errorf (format : String) (arg : Error)
  | errorfNil (format : String)
  deriving DecidableEq, Repr

/-- The call `xerrors.Errorf(format, arg)` on an error variable `arg`. -/
def Errorf (format : String) : Option Error → Error
  | some e => Error.errorf format e
  | none => Error.errorfNil format

/-- One instruction argument (`byzcoin.Argument`). -/
structure Argument where
  Name : String
  Value : Bytes
  deriving DecidableEq, Repr

/-- The argument list of an instruction (`byzcoin.Arguments`). -/
abbrev Arguments := List Argument

/-- The value of the first argument called `name`, nil when there is none
(`byzcoin.Arguments.Search`). -/
def Arguments.Search : Arguments → String → Bytes
  | [], _ => ""
  | arg :: rest, name => if arg.Name = name then arg.Value else Arguments.Search rest name

/-- The spawn part of an instruction (`byzcoin.Spawn`). -/
structure Spawn where
  ContractID : String
  Args : Arguments
  deriving DecidableEq, Repr

/-- The invoke part of an instruction (`byzcoin.Invoke`). -/
structure Invoke where
  ContractID : String
  Command : String
  Args : Arguments
  deriving DecidableEq, Repr

/-- The fields of `byzcoin.Instruction` the contracts read. `Spawn` and `Invoke`
are pointers; `none` is the nil pointer. -/
structure Instruction where
  InstanceID : InstanceID
  Spawn : Option Spawn
  Invoke : Option Invoke
  deriving DecidableEq, Repr

/-- A `byzcoin.Coin`. -/
structure Coin where
  Name : InstanceID
  Value : Nat
  deriving DecidableEq, Repr

/-- The operation of a state change (`byzcoin.StateAction`). -/
inductive StateAction where
  | Create
  | Update
  | Remove
  deriving DecidableEq, Repr

/-- A `byzcoin.StateChange`. -/
structure StateChange where
  StateAction : StateAction
  InstanceID : InstanceID
  ContractID : String
  Value : Bytes
  DarcID : DarcID
  deriving DecidableEq, Repr

/-- The constructor `byzcoin.NewStateChange(sa, iID, contractID, value, darcID)`. -/
def NewStateChange (sa : StateAction) (iID : InstanceID) (contractID : String)
    (value : Bytes) (darcID : DarcID) : StateChange :=
  ⟨sa, iID, contractID, value, darcID⟩

/-- The four values `GetValues` returns next to its error. -/
structure Values where
  value : Bytes
  version : Nat
  contractID : String
  darcID : DarcID
  deriving DecidableEq, Repr

/-- The read-only snapshot (`byzcoin.ReadOnlyStateTrie`), reduced to the one
method the contracts call. -/
structure ReadOnlyStateTrie where
  GetValues : Bytes → Except Error Values

/-- The record of the access-right contract: two parallel sequences. -/
structure AccessRight where
  Ids : List String
  Access : List String
  deriving DecidableEq, Repr

/-- One key/value record of the query contract. -/
structure Query where
  ID : String
  Value : Bytes
  deriving DecidableEq, Repr

/-- The record list of the query contract. -/
structure QueryData where
  Storage : List Query
  deriving DecidableEq, Repr

/-- The access-right contract value: `byzcoin.BasicContract` (no fields) and the
decoded record. -/
structure ContractAccessRight where
  AccessRight : AccessRight
  deriving DecidableEq, Repr

/-- The query contract value: `byzcoin.BasicContract` (no fields) and the decoded
record list. -/
structure medchainContract where
  QueryData : QueryData
  deriving DecidableEq, Repr

/-- The three results `(sc, cout, err)` of a contract method. -/
structure Ret where
  sc : List StateChange
  cout : List Coin
  err : Option Error
  deriving DecidableEq, Repr

/-- How a call ends: it returns, or it panics at run time. -/
inductive Outcome where
  | ret (r : Ret)
  | goPanic
  deriving DecidableEq, Repr

/-- Collaborators outside the repository. `Encode*` return Go's pair
`(buf, err)`; `DecodeAccessRight` returns the decoded record or the error. -/
structure Externals where
  DeriveID : Instruction → String → InstanceID
  EncodeAccessRight : AccessRight → Bytes × Option Error
  DecodeAccessRight : Bytes → Except Error AccessRight
  EncodeQueryData : QueryData → Bytes × Option Error

def ContractAccessRightID : String := "accessright"

def MedchainContractID : String := "queryContract"

/-! ## Slice primitives -/

/-- Modelled from the spec: the scan of `Find` from index `i` on, stopping at
the first element equal to `val`. -/
def Find.loop (val : String) : List String → Nat → Int × Bool
  | [], _ => (-1, false)
  | item :: rest, i => if item = val then ((i : Int), true) else Find.loop val rest (i + 1)

/-- Modelled from the spec: `Find(slice, val)`, whose body is not in the two
source files, is the first-match linear scan over `Ids` of section 4.1; it
returns the index of the first element equal to `val`, and `-1` when `val` is
absent (the callers test `idx == -1`). -/
def Find (slice : List String) (val : String) : Int × Bool :=
  Find.loop val slice 0

/-- The assignment `s[idx] = x`; `none` is the index-out-of-range panic. -/
def sliceAssign (s : List String) (idx : Int) (x : String) : Option (List String) :=
  if 0 ≤ idx ∧ idx.toNat < s.length then some (s.set idx.toNat x) else none

/-- The expression `append(s[:idx], s[idx+1:]...)`; `none` is the
slice-bounds-out-of-range panic of `s[idx+1:]`. -/
def sliceCut (s : List String) (idx : Int) : Option (List String) :=
  if 0 ≤ idx ∧ idx.toNat + 1 ≤ s.length then
    some (s.take idx.toNat ++ s.drop (idx.toNat + 1))
  else none

/-! ## The access-right contract (`admin/accessright.go`) -/

/-- The method `Spawn` of `ContractAccessRight`. -/
def ContractAccessRight.Spawn (X : Externals) (c : ContractAccessRight)
    (rst : ReadOnlyStateTrie) (inst : Instruction) (coins : List Coin) :
    ContractAccessRight × Outcome :=
  -- cout = coins
  match rst.GetValues inst.InstanceID with
  | .error err => (c, .ret ⟨[], coins, some err⟩)
  | .ok vals =>
    match inst.Spawn with
    | none => (c, .goPanic)
    | some sp =>
      (c, .ret ⟨[NewStateChange .Create (X.DeriveID inst "") ContractAccessRightID
                  (sp.Args.Search "ar") vals.darcID], coins, none⟩)

/-- The tail shared by the three commands of `Invoke`: encode `ar`, test `err`
(the variable the successful `Decode` left nil, not `err2`), emit the Update. -/
def emitUpdate (X : Externals) (inst : Instruction) (coins : List Coin)
    (darcID : DarcID) (ar : AccessRight) : Outcome :=
  let err : Option Error := none
  let (buf, err2) := X.EncodeAccessRight ar
  match err with
  | some _ => .ret ⟨[], [], some (Errorf "Encoding the access right struct: %w" err2)⟩
  | none =>
    .ret ⟨[NewStateChange .Update inst.InstanceID ContractAccessRightID buf darcID],
          coins, none⟩

/-- The method `Invoke` of `ContractAccessRight`. -/
def ContractAccessRight.Invoke (X : Externals) (c : ContractAccessRight)
    (rst : ReadOnlyStateTrie) (inst : Instruction) (coins : List Coin) :
    ContractAccessRight × Outcome :=
  -- cout = coins
  match rst.GetValues inst.InstanceID with
  | .error err => (c, .ret ⟨[], coins, some err⟩)
  | .ok vals =>
    match inst.Invoke with
    | none => (c, .goPanic)
    | some iv =>
      if iv.Command = "add" then
        let nid := iv.Args.Search "id"
        let nar := iv.Args.Search "ar"
        match X.DecodeAccessRight vals.value with
        | .error err => (c, .ret ⟨[], [], some (Errorf "Decoding %w" (some err))⟩)
        | .ok ar =>
          let idx := (Find ar.Ids nid).1
          if idx ≠ -1 then
            (c, .ret ⟨[], [], some (.new "The id is already registered")⟩)
          else
            let ar := { ar with Access := ar.Access ++ [nar] }
            let ar := { ar with Ids := ar.Ids ++ [nid] }
            (c, emitUpdate X inst coins vals.darcID ar)
      else if iv.Command = "update" then
        let nid := iv.Args.Search "id"
        let nar := iv.Args.Search "ar"
        match X.DecodeAccessRight vals.value with
        | .error err => (c, .ret ⟨[], [], some (Errorf "Decoding %w" (some err))⟩)
        | .ok ar =>
          let idx := (Find ar.Ids nid).1
          if idx = -1 then
            (c, .ret ⟨[], [], some (.new "There is no such value")⟩)
          else
            match sliceAssign ar.Access idx nar with
            | none => (c, .goPanic)
            | some access =>
              let ar := { ar with Access := access }
              (c, emitUpdate X inst coins vals.darcID ar)
      else if iv.Command = "delete" then
        let nid := iv.Args.Search "id"
        match X.DecodeAccessRight vals.value with
        | .error err => (c, .ret ⟨[], [], some (Errorf "Decoding %w" (some err))⟩)
        | .ok ar =>
          let idx := (Find ar.Ids nid).1
          if idx = -1 then
            (c, .ret ⟨[], [], some (.new "There is no such value")⟩)
          else
            match sliceCut ar.Access idx with
            | none => (c, .goPanic)
            | some access =>
              let ar := { ar with Access := access }
              match sliceCut ar.Ids idx with
              | none => (c, .goPanic)
              | some ids =>
                let ar := { ar with Ids := ids }
                (c, emitUpdate X inst coins vals.darcID ar)
      else
        (c, .ret ⟨[], [], some (.new
          "AccessRight contract can only update, delete or modify the access")⟩)

/-- The method `Delete` of `ContractAccessRight`. -/
def ContractAccessRight.Delete (_X : Externals) (c : ContractAccessRight)
    (rst : ReadOnlyStateTrie) (inst : Instruction) (coins : List Coin) :
    ContractAccessRight × Outcome :=
  -- cout = coins
  match rst.GetValues inst.InstanceID with
  | .error err => (c, .ret ⟨[], coins, some err⟩)
  | .ok vals =>
    (c, .ret ⟨[NewStateChange .Remove inst.InstanceID ContractAccessRightID "" vals.darcID],
              coins, none⟩)

/-! ## The query contract (`contract/contract.go`) -/

/-- The inner loop of `Update` for one argument `kv`, over the records still to
visit: the records as the loop leaves them, and the flag `updated`.  A match
with an empty value erases that record and breaks; a match with a non-empty
value overwrites the value and goes on. -/
def updateScan (kv : Argument) : List Query → List Query × Bool
  | [] => ([], false)
  | stored :: rest =>
    if stored.ID = kv.Name then
      if kv.Value.length = 0 then
        (rest, true)
      else
        (⟨stored.ID, kv.Value⟩ :: (updateScan kv rest).1, true)
    else
      (stored :: (updateScan kv rest).1, (updateScan kv rest).2)

/-- The body of the outer loop of `Update`: the scan, then the append when
nothing matched. -/
def updateArg (storage : List Query) (kv : Argument) : List Query :=
  let (storage, updated) := updateScan kv storage
  if !updated then storage ++ [⟨kv.Name, kv.Value⟩] else storage

/-- The method `Update` of `QueryData`; the result is the receiver after the call. -/
def QueryData.Update (cs : QueryData) (args : Arguments) : QueryData :=
  ⟨args.foldl updateArg cs.Storage⟩

/-- The method `Spawn` of `medchainContract`. -/
def medchainContract.Spawn (X : Externals) (c : medchainContract)
    (rst : ReadOnlyStateTrie) (inst : Instruction) (coins : List Coin) :
    medchainContract × Outcome :=
  -- cout = coins
  match rst.GetValues inst.InstanceID with
  | .error err => (c, .ret ⟨[], [], some (Errorf "failed to get the darc ID: %v" (some err))⟩)
  | .ok vals =>
    match inst.Spawn with
    | none => (c, .goPanic)
    | some sp =>
      let c : medchainContract :=
        ⟨⟨sp.Args.foldl (fun storage kv => storage ++ [⟨kv.Name, kv.Value⟩]) c.QueryData.Storage⟩⟩
      match X.EncodeQueryData c.QueryData with
      | (_, some err) =>
        (c, .ret ⟨[], [], some (Errorf "failed to encode QueryDataStorage: %v" (some err))⟩)
      | (csBuf, none) =>
        (c, .ret ⟨[NewStateChange .Create (X.DeriveID inst "") MedchainContractID csBuf
                    vals.darcID], coins, none⟩)

/-- The method `Invoke` of `medchainContract`. -/
def medchainContract.Invoke (X : Externals) (c : medchainContract)
    (rst : ReadOnlyStateTrie) (inst : Instruction) (coins : List Coin) :
    medchainContract × Outcome :=
  -- cout = coins
  match rst.GetValues inst.InstanceID with
  | .error err => (c, .ret ⟨[], coins, some err⟩)
  | .ok vals =>
    match inst.Invoke with
    | none => (c, .goPanic)
    | some iv =>
      if iv.Command ≠ "update" then
        (c, .ret ⟨[], [], some (.new "MedChain contract only supports spwan/update requests")⟩)
      else
        let c : medchainContract := ⟨c.QueryData.Update iv.Args⟩
        match X.EncodeQueryData c.QueryData with
        | (_, some err) =>
          (c, .ret ⟨[], [], some (Errorf "failed to encode data with error : %v" (some err))⟩)
        | (buf, none) =>
          (c, .ret ⟨[NewStateChange .Update inst.InstanceID MedchainContractID buf
                      vals.darcID], coins, none⟩)

/-- Modelled from the spec: the method `Delete` of `medchainContract`.
`contract.go` declares no `Delete` on `medchainContract`; the call resolves to
the method of the embedded `byzcoin.BasicContract` (lines 20-23), whose body is
in neither source file.  Section 4.2 gives it the contract of the Delete of
section 4.1, "one Remove, no decode": the ownership reference is looked up at the
instance address, a failed lookup ends the call with its error and no
state-change (section 7), and otherwise the call returns one Remove at the
instance address with an empty payload, the reference forwarded (section 3) and
the coins passed through (section 5). -/
def medchainContract.Delete (_X : Externals) (c : medchainContract)
    (rst : ReadOnlyStateTrie) (inst : Instruction) (coins : List Coin) :
    medchainContract × Outcome :=
  match rst.GetValues inst.InstanceID with
  | .error err => (c, .ret ⟨[], coins, some err⟩)
  | .ok vals =>
    (c, .ret ⟨[NewStateChange .Remove inst.InstanceID MedchainContractID "" vals.darcID],
              coins, none⟩)


/-! ## Success of a call -/

/-- A call succeeds when it returns with a nil error. -/
def Outcome.succeeds : Outcome → Bool
  | .ret r => r.err.isNone
  | .goPanic => false

/-! ## A concrete instance of the collaborators, for evaluating the contracts -/

/-- A toy codec and address derivation: records are written as comma-separated
lists, and three access-right blobs decode. -/
def demoX : Externals where
  DeriveID := fun inst _ => "derived/" ++ inst.InstanceID
  EncodeAccessRight := fun ar =>
    (String.intercalate "," ar.Ids ++ "|" ++ String.intercalate "," ar.Access, none)
  DecodeAccessRight := fun b =>
    if b = "u1|read" then .ok ⟨["u1"], ["read"]⟩
    else if b = "u1,u2|read,write" then .ok ⟨["u1", "u2"], ["read", "write"]⟩
    else if b = "|" then .ok ⟨[], []⟩
    else .error (.new "malformed")
  EncodeQueryData := fun qd =>
    (String.join (qd.Storage.map fun q => q.ID ++ "=" ++ q.Value ++ ";"), none)

/-- A snapshot with one access-right instance and one query instance. -/
def demoRst : ReadOnlyStateTrie where
  GetValues := fun k =>
    if k = "inst1" then .ok ⟨"u1|read", 0, "accessright", "darc1"⟩
    else if k = "inst2" then .ok ⟨"k=v0;", 0, "queryContract", "darc2"⟩
    else .error (.new "no such key")

/-- An invoke instruction on the access-right instance. -/
def demoInvoke (command : String) (args : Arguments) : Instruction :=
  ⟨"inst1", none, some ⟨"accessright", command, args⟩⟩

/-- A spawn instruction of the query contract. -/
def demoSpawn (args : Arguments) : Instruction :=
  ⟨"inst2", some ⟨"queryContract", args⟩, none⟩

/-- A bucket holding one coin. -/
def demoCoins : List Coin := [⟨"coin", 1⟩]

/-- An access-right contract value. -/
def demoAR : ContractAccessRight := ⟨⟨["u1"], ["read"]⟩⟩

/-- Values a lookup can return for the access-right instance. -/
def demoVals : Values := ⟨"u1|read", 0, "accessright", "darc1"⟩


/-- A query contract value with an empty record list. -/
def demoQC : medchainContract := ⟨⟨[]⟩⟩

/-- A delete instruction on the query instance. -/
def demoDelete : Instruction := ⟨"inst2", none, none⟩

/-- Values a lookup can return for the query instance. -/
def demoQVals : Values := ⟨"k=v0;", 0, "queryContract", "darc2"⟩

/-- A delete instruction on the access-right instance. -/
def demoDeleteAR : Instruction := ⟨"inst1", none, none⟩

/-! ## The shape of a result, and further instances of the collaborators -/

/-- The all-or-nothing shape of a returned triple: an error with no state-change,
or no error with exactly one state-change. -/
def Ret.allOrNothing (r : Ret) : Bool :=
  match r.err with
  | some _ => r.sc.isEmpty
  | none => r.sc.length == 1

/-- The records of an argument list, as Spawn of the query contract appends them. -/
def argRecords (args : Arguments) : List Query :=
  args.map (fun a => ⟨a.Name, a.Value⟩)

/-- The toy codec with an access-right encoder that fails on every record. -/
def demoFailX : Externals :=
  { demoX with EncodeAccessRight := fun _ => ("", some (.new "encode failed")) }

/-- The toy codec with a decoder that yields a record of one id and no access
entry, the record a Spawn with the raw payload `u1|` stores. -/
def demoBrokenX : Externals :=
  { demoX with
    DecodeAccessRight := fun b =>
      if b = "u1|" then .ok ⟨["u1"], []⟩ else .error (.new "malformed") }

/-- Values of an access-right instance holding the unpaired record. -/
def demoBrokenVals : Values := ⟨"u1|", 0, "accessright", "darc1"⟩

/-- A snapshot whose access-right instance holds the unpaired record. -/
def demoBrokenRst : ReadOnlyStateTrie where
  GetValues := fun k =>
    if k = "inst1" then .ok demoBrokenVals else .error (.new "no such key")

/-- A spawn instruction of the access-right contract, sent to `inst1`. -/
def demoSpawnAR (args : Arguments) : Instruction :=
  ⟨"inst1", some ⟨"accessright", args⟩, none⟩

/-- An invoke instruction on the query instance. -/
def demoInvokeQ (command : String) (args : Arguments) : Instruction :=
  ⟨"inst2", none, some ⟨"queryContract", command, args⟩⟩

/-- A spawn instruction sent to an address the snapshot does not hold. -/
def demoSpawnNowhere : Instruction :=
  ⟨"nowhere", some ⟨"queryContract", []⟩, none⟩

/-- What one argument with a non-empty value does to one record of the list:
a record with the argument's name takes its value, any other record stays. -/
def overwrite (kv : Argument) (q : Query) : Query :=
  if q.ID = kv.Name then ⟨q.ID, kv.Value⟩ else q

/-- The overwrites of an argument list on one record, in argument order. -/
def overwriteAll (args : Arguments) (q : Query) : Query :=
  args.foldl (fun q a => overwrite a q) q

/-! ## Lemmas on the slice primitives -/

theorem Find_loop_of_not_mem (val : String) (l : List String) (i : Nat) (h : val ∉ l) :
    Find.loop val l i = (-1, false) := by
  induction l generalizing i with
  | nil => rfl
  | cons a t ih =>
    have h1 : a ≠ val := fun e => h (by simp [e])
    have h2 : val ∉ t := fun e => h (by simp [e])
    simp [Find.loop, h1, ih _ h2]

theorem Find_loop_of_mem (val : String) (l : List String) (i : Nat) (h : val ∈ l) :
    Find.loop val l i = (((i + l.indexOf val : Nat) : Int), true) := by
  induction l generalizing i with
  | nil => simp at h
  | cons a t ih =>
    by_cases e : a = val
    · subst e; simp [Find.loop]
    · have h2 : val ∈ t := by
        rcases List.mem_cons.mp h with h | h
        · exact absurd h.symm e
        · exact h
      have e2 : ¬ val = a := fun x => e x.symm
      simp [Find.loop, e, ih _ h2, List.indexOf_cons_ne _ e]
      omega

theorem Find_fst_of_not_mem (val : String) (l : List String) (h : val ∉ l) :
    (Find l val).1 = -1 := by
  simp [Find, Find_loop_of_not_mem val l 0 h]

theorem Find_fst_of_mem (val : String) (l : List String) (h : val ∈ l) :
    (Find l val).1 = (l.indexOf val : Int) := by
  simp [Find, Find_loop_of_mem val l 0 h]

theorem Find_fst_ne_neg_one (val : String) (l : List String) (h : val ∈ l) :
    (Find l val).1 ≠ -1 := by
  rw [Find_fst_of_mem val l h]; omega


theorem sliceAssign_indexOf (s ids : List String) (val x : String) (h : val ∈ ids)
    (hlen : ids.length = s.length) :
    sliceAssign s (ids.indexOf val : Int) x = some (s.set (ids.indexOf val) x) := by
  have := List.indexOf_lt_length.mpr h
  simp [sliceAssign]; omega

theorem sliceCut_indexOf (s ids : List String) (val : String) (h : val ∈ ids)
    (hlen : ids.length = s.length) :
    sliceCut s (ids.indexOf val : Int) = some (s.eraseIdx (ids.indexOf val)) := by
  have := List.indexOf_lt_length.mpr h
  simp [sliceCut, List.eraseIdx_eq_take_drop_succ]; omega

theorem indexOf_first (l : List String) (v : String) (h : v ∈ l) :
    l[l.indexOf v]? = some v ∧ ∀ j, j < l.indexOf v → l[j]? ≠ some v := by
  constructor
  · have hl := List.indexOf_lt_length.mpr h
    rw [List.getElem?_eq_getElem hl]
    simp [List.indexOf_getElem]
  · clear h
    induction l with
    | nil => simp
    | cons a t ih =>
      intro j hj
      by_cases e : a = v
      · subst e; simp at hj
      · rw [List.indexOf_cons_ne _ e] at hj
        cases j with
        | zero => simpa using e
        | succ k => simpa using ih k (by omega)

/-! ## The commands of the access-right contract -/

/-- C1. AccessRightStore Invoke "add": when the snapshot lookup returns a value
that decodes to the record `r`, the call succeeds if and only if the id is not in
`r.Ids`; on success it leaves one Update at the instance address whose payload is
the encoding of the record with `Ids = r.Ids ++ [id]` and
`Access = r.Access ++ [ar]`; on an id already present it fails with the
duplicate-id error and an empty state-change list. -/
theorem accessright_invoke_add (X : Externals) (c : ContractAccessRight)
    (rst : ReadOnlyStateTrie) (inst : Instruction) (coins : List Coin) (iv : Invoke)
    (vals : Values) (r : AccessRight)
    (hget : rst.GetValues inst.InstanceID = .ok vals)
    (hinv : inst.Invoke = some iv) (hcmd : iv.Command = "add")
    (hdec : X.DecodeAccessRight vals.value = .ok r) :
    ((ContractAccessRight.Invoke X c rst inst coins).2.succeeds ↔
        iv.Args.Search "id" ∉ r.Ids) ∧
    (iv.Args.Search "id" ∉ r.Ids →
      ContractAccessRight.Invoke X c rst inst coins =
        (c, .ret ⟨[⟨.Update, inst.InstanceID, ContractAccessRightID,
            (X.EncodeAccessRight
              ⟨r.Ids ++ [iv.Args.Search "id"], r.Access ++ [iv.Args.Search "ar"]⟩).1,
            vals.darcID⟩], coins, none⟩)) ∧
    (iv.Args.Search "id" ∈ r.Ids →
      ContractAccessRight.Invoke X c rst inst coins =
        (c, .ret ⟨[], [], some (.new "The id is already registered")⟩)) := by
  have hno : iv.Args.Search "id" ∉ r.Ids →
      ContractAccessRight.Invoke X c rst inst coins =
        (c, .ret ⟨[⟨.Update, inst.InstanceID, ContractAccessRightID,
            (X.EncodeAccessRight
              ⟨r.Ids ++ [iv.Args.Search "id"], r.Access ++ [iv.Args.Search "ar"]⟩).1,
            vals.darcID⟩], coins, none⟩) := by
    intro h
    simp [ContractAccessRight.Invoke, hget, hinv, hcmd, hdec, Find_fst_of_not_mem _ _ h,
      emitUpdate, NewStateChange]
  have hyes : iv.Args.Search "id" ∈ r.Ids →
      ContractAccessRight.Invoke X c rst inst coins =
        (c, .ret ⟨[], [], some (.new "The id is already registered")⟩) := by
    intro h
    simp [ContractAccessRight.Invoke, hget, hinv, hcmd, hdec, Find_fst_ne_neg_one _ _ h]
  refine ⟨?_, hno, hyes⟩
  by_cases h : iv.Args.Search "id" ∈ r.Ids
  · simp [hyes h, h, Outcome.succeeds]
  · simp [hno h, h, Outcome.succeeds]

/-- Witness of C1: adding `u2` to the record `{Ids:[u1], Access:[read]}`. -/
theorem accessright_invoke_add_witness :
    ContractAccessRight.Invoke demoX demoAR demoRst
        (demoInvoke "add" [⟨"id", "u2"⟩, ⟨"ar", "write"⟩]) demoCoins =
      (demoAR, .ret ⟨[⟨.Update, "inst1", "accessright", "u1,u2|read,write", "darc1"⟩],
        demoCoins, none⟩) :=
  (accessright_invoke_add demoX demoAR demoRst
    (demoInvoke "add" [⟨"id", "u2"⟩, ⟨"ar", "write"⟩]) demoCoins
    ⟨"accessright", "add", [⟨"id", "u2"⟩, ⟨"ar", "write"⟩]⟩ demoVals ⟨["u1"], ["read"]⟩
    rfl rfl rfl rfl).2.1 (by decide)

/-- C2. AccessRightStore Invoke "update": for a stored record `r` with
`len(r.Ids) = len(r.Access)`, the call succeeds if and only if the id is in
`r.Ids`; on success it leaves one Update whose payload is the encoding of the
record with the same `Ids` and with `Access` changed only at `i`, the first
index with `r.Ids[i] = id`, where it becomes `ar`; when the id is absent the
call fails with the not-found error and an empty state-change list. -/
theorem accessright_invoke_update (X : Externals) (c : ContractAccessRight)
    (rst : ReadOnlyStateTrie) (inst : Instruction) (coins : List Coin) (iv : Invoke)
    (vals : Values) (r : AccessRight)
    (hget : rst.GetValues inst.InstanceID = .ok vals)
    (hinv : inst.Invoke = some iv) (hcmd : iv.Command = "update")
    (hdec : X.DecodeAccessRight vals.value = .ok r)
    (hlen : r.Ids.length = r.Access.length) :
    ((ContractAccessRight.Invoke X c rst inst coins).2.succeeds ↔
        iv.Args.Search "id" ∈ r.Ids) ∧
    (iv.Args.Search "id" ∈ r.Ids →
      (r.Ids[r.Ids.indexOf (iv.Args.Search "id")]? = some (iv.Args.Search "id") ∧
        ∀ j, j < r.Ids.indexOf (iv.Args.Search "id") →
          r.Ids[j]? ≠ some (iv.Args.Search "id")) ∧
      ContractAccessRight.Invoke X c rst inst coins =
        (c, .ret ⟨[⟨.Update, inst.InstanceID, ContractAccessRightID,
            (X.EncodeAccessRight
              ⟨r.Ids, r.Access.set (r.Ids.indexOf (iv.Args.Search "id"))
                (iv.Args.Search "ar")⟩).1,
            vals.darcID⟩], coins, none⟩)) ∧
    (iv.Args.Search "id" ∉ r.Ids →
      ContractAccessRight.Invoke X c rst inst coins =
        (c, .ret ⟨[], [], some (.new "There is no such value")⟩)) := by
  have hyes : iv.Args.Search "id" ∈ r.Ids →
      ContractAccessRight.Invoke X c rst inst coins =
        (c, .ret ⟨[⟨.Update, inst.InstanceID, ContractAccessRightID,
            (X.EncodeAccessRight
              ⟨r.Ids, r.Access.set (r.Ids.indexOf (iv.Args.Search "id"))
                (iv.Args.Search "ar")⟩).1,
            vals.darcID⟩], coins, none⟩) := by
    intro h
    have hne := Find_fst_ne_neg_one _ _ h
    have hset := sliceAssign_indexOf r.Access r.Ids _ (iv.Args.Search "ar") h hlen
    rw [← Find_fst_of_mem _ _ h] at hset
    simp [ContractAccessRight.Invoke, hget, hinv, hcmd, hdec, hne, hset,
      emitUpdate, NewStateChange]
  have hno : iv.Args.Search "id" ∉ r.Ids →
      ContractAccessRight.Invoke X c rst inst coins =
        (c, .ret ⟨[], [], some (.new "There is no such value")⟩) := by
    intro h
    simp [ContractAccessRight.Invoke, hget, hinv, hcmd, hdec, Find_fst_of_not_mem _ _ h]
  refine ⟨?_, fun h => ⟨indexOf_first _ _ h, hyes h⟩, hno⟩
  by_cases h : iv.Args.Search "id" ∈ r.Ids
  · simp [hyes h, h, Outcome.succeeds]
  · simp [hno h, h, Outcome.succeeds]

/-- Witness of C2: changing the right of `u1` in `{Ids:[u1], Access:[read]}`. -/
theorem accessright_invoke_update_witness :
    ContractAccessRight.Invoke demoX demoAR demoRst
        (demoInvoke "update" [⟨"id", "u1"⟩, ⟨"ar", "write"⟩]) demoCoins =
      (demoAR, .ret ⟨[⟨.Update, "inst1", "accessright", "u1|write", "darc1"⟩],
        demoCoins, none⟩) :=
  ((accessright_invoke_update demoX demoAR demoRst
    (demoInvoke "update" [⟨"id", "u1"⟩, ⟨"ar", "write"⟩]) demoCoins
    ⟨"accessright", "update", [⟨"id", "u1"⟩, ⟨"ar", "write"⟩]⟩ demoVals ⟨["u1"], ["read"]⟩
    rfl rfl rfl rfl rfl).2.1 (by decide)).2

/-- C3. AccessRightStore Invoke "delete": for a stored record `r` with
`len(r.Ids) = len(r.Access)`, the call succeeds if and only if the id is in
`r.Ids`; on success it leaves one Update whose payload is the encoding of the
record with position `i` erased from both `Ids` and `Access`, `i` being the
first index with `r.Ids[i] = id`: entries before `i` stay where they are and
entries after `i` move down by one, in both sequences alike; when the id is
absent the call fails with the not-found error and an empty state-change list. -/
theorem accessright_invoke_delete (X : Externals) (c : ContractAccessRight)
    (rst : ReadOnlyStateTrie) (inst : Instruction) (coins : List Coin) (iv : Invoke)
    (vals : Values) (r : AccessRight)
    (hget : rst.GetValues inst.InstanceID = .ok vals)
    (hinv : inst.Invoke = some iv) (hcmd : iv.Command = "delete")
    (hdec : X.DecodeAccessRight vals.value = .ok r)
    (hlen : r.Ids.length = r.Access.length) :
    ((ContractAccessRight.Invoke X c rst inst coins).2.succeeds ↔
        iv.Args.Search "id" ∈ r.Ids) ∧
    (iv.Args.Search "id" ∈ r.Ids →
      (r.Ids[r.Ids.indexOf (iv.Args.Search "id")]? = some (iv.Args.Search "id") ∧
        ∀ j, j < r.Ids.indexOf (iv.Args.Search "id") →
          r.Ids[j]? ≠ some (iv.Args.Search "id")) ∧
      ContractAccessRight.Invoke X c rst inst coins =
        (c, .ret ⟨[⟨.Update, inst.InstanceID, ContractAccessRightID,
            (X.EncodeAccessRight
              ⟨r.Ids.eraseIdx (r.Ids.indexOf (iv.Args.Search "id")),
               r.Access.eraseIdx (r.Ids.indexOf (iv.Args.Search "id"))⟩).1,
            vals.darcID⟩], coins, none⟩) ∧
      (∀ j, j < r.Ids.indexOf (iv.Args.Search "id") →
        (r.Ids.eraseIdx (r.Ids.indexOf (iv.Args.Search "id")))[j]? = r.Ids[j]? ∧
        (r.Access.eraseIdx (r.Ids.indexOf (iv.Args.Search "id")))[j]? = r.Access[j]?) ∧
      (∀ j, r.Ids.indexOf (iv.Args.Search "id") ≤ j →
        (r.Ids.eraseIdx (r.Ids.indexOf (iv.Args.Search "id")))[j]? = r.Ids[j + 1]? ∧
        (r.Access.eraseIdx (r.Ids.indexOf (iv.Args.Search "id")))[j]? = r.Access[j + 1]?)) ∧
    (iv.Args.Search "id" ∉ r.Ids →
      ContractAccessRight.Invoke X c rst inst coins =
        (c, .ret ⟨[], [], some (.new "There is no such value")⟩)) := by
  have hyes : iv.Args.Search "id" ∈ r.Ids →
      ContractAccessRight.Invoke X c rst inst coins =
        (c, .ret ⟨[⟨.Update, inst.InstanceID, ContractAccessRightID,
            (X.EncodeAccessRight
              ⟨r.Ids.eraseIdx (r.Ids.indexOf (iv.Args.Search "id")),
               r.Access.eraseIdx (r.Ids.indexOf (iv.Args.Search "id"))⟩).1,
            vals.darcID⟩], coins, none⟩) := by
    intro h
    have hne := Find_fst_ne_neg_one _ _ h
    have hcutA := sliceCut_indexOf r.Access r.Ids _ h hlen
    have hcutI := sliceCut_indexOf r.Ids r.Ids _ h rfl
    rw [← Find_fst_of_mem _ _ h] at hcutA hcutI
    simp [ContractAccessRight.Invoke, hget, hinv, hcmd, hdec, hne, hcutA, hcutI,
      emitUpdate, NewStateChange]
  have hno : iv.Args.Search "id" ∉ r.Ids →
      ContractAccessRight.Invoke X c rst inst coins =
        (c, .ret ⟨[], [], some (.new "There is no such value")⟩) := by
    intro h
    simp [ContractAccessRight.Invoke, hget, hinv, hcmd, hdec, Find_fst_of_not_mem _ _ h]
  refine ⟨?_, fun h => ⟨indexOf_first _ _ h, hyes h, ?_, ?_⟩, hno⟩
  · by_cases h : iv.Args.Search "id" ∈ r.Ids
    · simp [hyes h, h, Outcome.succeeds]
    · simp [hno h, h, Outcome.succeeds]
  · intro j hj
    exact ⟨by rw [List.getElem?_eraseIdx, if_pos hj],
      by rw [List.getElem?_eraseIdx, if_pos hj]⟩
  · intro j hj
    have hge : ¬ j < r.Ids.indexOf (iv.Args.Search "id") := by omega
    exact ⟨by rw [List.getElem?_eraseIdx, if_neg hge],
      by rw [List.getElem?_eraseIdx, if_neg hge]⟩

/-- Witness of C3, the scenario of the specification: deleting `u1` from
`{Ids:[u1], Access:[read]}` leaves one Update whose payload is the encoding of
`{Ids:[], Access:[]}`, which decodes to that record. -/
theorem accessright_invoke_delete_witness :
    ContractAccessRight.Invoke demoX demoAR demoRst
        (demoInvoke "delete" [⟨"id", "u1"⟩]) demoCoins =
      (demoAR, .ret ⟨[⟨.Update, "inst1", "accessright",
          (demoX.EncodeAccessRight ⟨[], []⟩).1, "darc1"⟩], demoCoins, none⟩) ∧
    demoX.DecodeAccessRight (demoX.EncodeAccessRight ⟨[], []⟩).1 = .ok ⟨[], []⟩ :=
  ⟨((accessright_invoke_delete demoX demoAR demoRst
    (demoInvoke "delete" [⟨"id", "u1"⟩]) demoCoins
    ⟨"accessright", "delete", [⟨"id", "u1"⟩]⟩ demoVals ⟨["u1"], ["read"]⟩
    rfl rfl rfl rfl rfl).2.1 (by decide)).2.1, rfl⟩

/-! ## The update of the query record list -/

theorem bytes_length_eq_zero (b : Bytes) : b.length = 0 ↔ b = "" := by
  cases b with
  | mk l => simp [String.length, String.ext_iff]

theorem updateScan_of_absent (kv : Argument) (s : List Query)
    (h : ∀ q ∈ s, q.ID ≠ kv.Name) : updateScan kv s = (s, false) := by
  induction s with
  | nil => rfl
  | cons a t ih =>
    have ha : a.ID ≠ kv.Name := h a (by simp)
    have ht := ih (fun q hq => h q (by simp [hq]))
    simp [updateScan, ha, ht]

theorem updateScan_fst_overwrite (kv : Argument) (s : List Query) (hv : kv.Value ≠ "") :
    (updateScan kv s).1 = s.map (fun q => if q.ID = kv.Name then ⟨q.ID, kv.Value⟩ else q) := by
  have hl : ¬ kv.Value.length = 0 := fun e => hv ((bytes_length_eq_zero _).mp e)
  induction s with
  | nil => rfl
  | cons a t ih =>
    by_cases ha : a.ID = kv.Name
    · simp [updateScan, ha, hl, ← ih]
    · simp [updateScan, ha, hl, ← ih]

theorem updateScan_snd_of_present (kv : Argument) (s : List Query)
    (h : ∃ q ∈ s, q.ID = kv.Name) : (updateScan kv s).2 = true := by
  induction s with
  | nil => simp at h
  | cons a t ih =>
    by_cases ha : a.ID = kv.Name
    · by_cases hl : kv.Value.length = 0 <;> simp [updateScan, ha, hl]
    · obtain ⟨q, hq, hqn⟩ := h
      rcases List.mem_cons.mp hq with e | e
      · exact absurd (e ▸ hqn) ha
      · simp [updateScan, ha, ih ⟨q, e, hqn⟩]

theorem updateScan_fst_erase (kv : Argument) (s : List Query) (hv : kv.Value = "") :
    (updateScan kv s).1 = s.eraseP (fun q => decide (q.ID = kv.Name)) := by
  have hl : kv.Value.length = 0 := (bytes_length_eq_zero _).mpr hv
  induction s with
  | nil => rfl
  | cons a t ih =>
    by_cases ha : a.ID = kv.Name
    · simp [updateScan, ha, hl]
    · simp [updateScan, ha, ih, List.eraseP_cons]

/-- C4. `QueryData.Update` with the single argument `(name, value)`, `value`
non-empty, on a record list holding at least one record with `ID = name`: every
record with `ID = name` (not only the first) gets `Value = value`, every other
record is unchanged, and the result has the same length and the same IDs in the
same order. -/
theorem querydata_update_overwrites_all (cs : QueryData) (name : String) (value : Bytes)
    (hval : value ≠ "") (hex : ∃ q ∈ cs.Storage, q.ID = name) :
    (cs.Update [⟨name, value⟩]).Storage =
        cs.Storage.map (fun q => if q.ID = name then ⟨q.ID, value⟩ else q) ∧
    (cs.Update [⟨name, value⟩]).Storage.length = cs.Storage.length ∧
    (cs.Update [⟨name, value⟩]).Storage.map (fun q => q.ID) =
        cs.Storage.map (fun q => q.ID) ∧
    (∀ (i : Nat) (q : Query), cs.Storage[i]? = some q →
      (cs.Update [⟨name, value⟩]).Storage[i]? =
        some (if q.ID = name then ⟨name, value⟩ else q)) := by
  have hmain : (cs.Update [⟨name, value⟩]).Storage =
      cs.Storage.map (fun q => if q.ID = name then ⟨q.ID, value⟩ else q) := by
    have h1 := updateScan_fst_overwrite ⟨name, value⟩ cs.Storage hval
    have h2 := updateScan_snd_of_present ⟨name, value⟩ cs.Storage hex
    simp only [QueryData.Update, List.foldl, updateArg, h2]
    simpa using h1
  refine ⟨hmain, ?_, ?_, ?_⟩
  · rw [hmain, List.length_map]
  · rw [hmain, List.map_map]
    apply List.map_congr_left
    intro q _
    by_cases e : q.ID = name <;> simp [e]
  · intro i q hq
    rw [hmain, List.getElem?_map, hq]
    by_cases e : q.ID = name <;> simp [e]

/-- Witness of C4, the example of the specification:
`[(k,v0),(k,v1)]` with `(k,"new")` gives `[(k,"new"),(k,"new")]`. -/
theorem querydata_update_overwrites_all_witness :
    (QueryData.Update ⟨[⟨"k", "v0"⟩, ⟨"k", "v1"⟩]⟩ [⟨"k", "new"⟩]).Storage =
      [⟨"k", "new"⟩, ⟨"k", "new"⟩] :=
  (querydata_update_overwrites_all ⟨[⟨"k", "v0"⟩, ⟨"k", "v1"⟩]⟩ "k" "new" (by decide)
    ⟨⟨"k", "v0"⟩, by decide, rfl⟩).1

/-- C5. `QueryData.Update` with the single argument `(name, "")` on a record list
holding at least one record with `ID = name`: the result is the input list with
the first record whose `ID = name` erased; the records before it, and all records
after it (a later record with the same ID included), are kept in order, and
nothing is appended. -/
theorem querydata_update_erases_first (cs : QueryData) (name : String)
    (hex : ∃ q ∈ cs.Storage, q.ID = name) :
    (cs.Update [⟨name, ""⟩]).Storage =
        cs.Storage.eraseP (fun q => decide (q.ID = name)) ∧
    ∃ pre q post, cs.Storage = pre ++ q :: post ∧ q.ID = name ∧
      (∀ p ∈ pre, p.ID ≠ name) ∧ (cs.Update [⟨name, ""⟩]).Storage = pre ++ post := by
  have hmain : (cs.Update [⟨name, ""⟩]).Storage =
      cs.Storage.eraseP (fun q => decide (q.ID = name)) := by
    have h1 := updateScan_fst_erase ⟨name, ""⟩ cs.Storage rfl
    have h2 := updateScan_snd_of_present ⟨name, ""⟩ cs.Storage hex
    simp only [QueryData.Update, List.foldl, updateArg, h2]
    simpa using h1
  refine ⟨hmain, ?_⟩
  obtain ⟨q0, hq0, hq0n⟩ := hex
  obtain ⟨q, pre, post, hpre, hq, hs, he⟩ :=
    List.exists_of_eraseP (p := fun q => decide (q.ID = name)) hq0 (by simpa using hq0n)
  refine ⟨pre, q, post, hs, by simpa using hq, ?_, by rw [hmain, he]⟩
  intro p hp
  simpa using hpre p hp

/-- Witness of C5, the example of the specification:
`[(k,v0),(k2,v1)]` with `(k,"")` gives `[(k2,v1)]`. -/
theorem querydata_update_erases_first_witness :
    (QueryData.Update ⟨[⟨"k", "v0"⟩, ⟨"k2", "v1"⟩]⟩ [⟨"k", ""⟩]).Storage = [⟨"k2", "v1"⟩] :=
  (querydata_update_erases_first ⟨[⟨"k", "v0"⟩, ⟨"k2", "v1"⟩]⟩ "k"
    ⟨⟨"k", "v0"⟩, by decide, rfl⟩).1

/-- C6. `QueryData.Update` with the single argument `(name, value)` on a record
list holding no record with `ID = name`: the result is the input list followed
by the one record `(name, value)`, for every value, the empty one included. -/
theorem querydata_update_appends_absent (cs : QueryData) (name : String) (value : Bytes)
    (habs : ∀ q ∈ cs.Storage, q.ID ≠ name) :
    (cs.Update [⟨name, value⟩]).Storage = cs.Storage ++ [⟨name, value⟩] := by
  have h := updateScan_of_absent ⟨name, value⟩ cs.Storage habs
  simp [QueryData.Update, updateArg, h]

/-- Witness of C6: an absent key with an empty value gains an empty-valued record. -/
theorem querydata_update_appends_absent_witness :
    (QueryData.Update ⟨[⟨"k", "v0"⟩]⟩ [⟨"k2", ""⟩]).Storage = [⟨"k", "v0"⟩, ⟨"k2", ""⟩] :=
  querydata_update_appends_absent ⟨[⟨"k", "v0"⟩]⟩ "k2" "" (by decide)

/-! ## Spawn of the query contract, and Delete -/

theorem foldl_append_record (args : Arguments) (init : List Query) :
    args.foldl (fun storage kv => storage ++ [(⟨kv.Name, kv.Value⟩ : Query)]) init =
      init ++ args.map (fun a => (⟨a.Name, a.Value⟩ : Query)) := by
  induction args generalizing init with
  | nil => simp
  | cons a t ih => simp [List.foldl, ih]

/-- C7. QueryRecordStore Spawn: when the snapshot lookup succeeds, the record list
of the component is empty and the encoder accepts the record list, Spawn leaves
exactly one Create state-change whose payload is the encoding of the record list
`[(a.Name, a.Value) for a in args]`, which has the length and the order of
`args`, duplicate names kept as separate records. -/
theorem medchain_spawn_records (X : Externals) (c : medchainContract)
    (rst : ReadOnlyStateTrie) (inst : Instruction) (coins : List Coin) (sp : Spawn)
    (vals : Values)
    (hget : rst.GetValues inst.InstanceID = .ok vals)
    (hsp : inst.Spawn = some sp)
    (hempty : c.QueryData.Storage = [])
    (henc : (X.EncodeQueryData ⟨sp.Args.map (fun a => ⟨a.Name, a.Value⟩)⟩).2 = none) :
    medchainContract.Spawn X c rst inst coins =
      (⟨⟨sp.Args.map (fun a => ⟨a.Name, a.Value⟩)⟩⟩,
        .ret ⟨[⟨.Create, X.DeriveID inst "", MedchainContractID,
            (X.EncodeQueryData ⟨sp.Args.map (fun a => ⟨a.Name, a.Value⟩)⟩).1,
            vals.darcID⟩], coins, none⟩) ∧
    (sp.Args.map (fun a => (⟨a.Name, a.Value⟩ : Query))).length = sp.Args.length ∧
    (∀ (i : Nat) (a : Argument), sp.Args[i]? = some a →
      (sp.Args.map (fun a => (⟨a.Name, a.Value⟩ : Query)))[i]? = some ⟨a.Name, a.Value⟩) := by
  refine ⟨?_, by simp, ?_⟩
  · rcases hX : X.EncodeQueryData ⟨sp.Args.map (fun a => ⟨a.Name, a.Value⟩)⟩ with ⟨buf, e⟩
    rw [hX] at henc
    simp only at henc
    subst henc
    simp [medchainContract.Spawn, hget, hsp, hempty, foldl_append_record, hX, NewStateChange]
  · intro i a ha
    simp [List.getElem?_map, ha]

/-- Witness of C7, the example of the specification: args `[(k1,v1),(k2,v2)]`
give the records `[(k1,v1),(k2,v2)]` in argument order. -/
theorem medchain_spawn_records_witness :
    medchainContract.Spawn demoX demoQC demoRst
        (demoSpawn [⟨"k1", "v1"⟩, ⟨"k2", "v2"⟩]) demoCoins =
      (⟨⟨[⟨"k1", "v1"⟩, ⟨"k2", "v2"⟩]⟩⟩,
        .ret ⟨[⟨.Create, "derived/inst2", "queryContract",
            (demoX.EncodeQueryData ⟨[⟨"k1", "v1"⟩, ⟨"k2", "v2"⟩]⟩).1, "darc2"⟩],
          demoCoins, none⟩) :=
  (medchain_spawn_records demoX demoQC demoRst (demoSpawn [⟨"k1", "v1"⟩, ⟨"k2", "v2"⟩])
    demoCoins ⟨"queryContract", [⟨"k1", "v1"⟩, ⟨"k2", "v2"⟩]⟩ demoQVals rfl rfl rfl rfl).1

/-- C8. Delete on either component: when the snapshot lookup succeeds, Delete
returns no error and exactly one state-change, whose operation is Remove, whose
address is the instruction's instance address and whose payload is empty, and
the result is the same whatever value is stored at the instance.  For the
access-right contract this is the method of `accessright.go`; the query contract
declares no Delete, and its half is stated of the Delete of section 4.2. -/
theorem delete_one_remove (X : Externals) (rst : ReadOnlyStateTrie) (inst : Instruction)
    (coins : List Coin) (vals : Values)
    (hget : rst.GetValues inst.InstanceID = .ok vals) :
    (∀ c : ContractAccessRight,
      ContractAccessRight.Delete X c rst inst coins =
        (c, .ret ⟨[⟨.Remove, inst.InstanceID, ContractAccessRightID, "", vals.darcID⟩],
          coins, none⟩)) ∧
    (∀ (c : ContractAccessRight) (rst2 : ReadOnlyStateTrie) (vals2 : Values),
      rst2.GetValues inst.InstanceID = .ok vals2 → vals2.darcID = vals.darcID →
      ContractAccessRight.Delete X c rst2 inst coins =
        ContractAccessRight.Delete X c rst inst coins) ∧
    (∀ c : medchainContract, ∃ (sc : StateChange) (cout : List Coin),
      medchainContract.Delete X c rst inst coins = (c, .ret ⟨[sc], cout, none⟩) ∧
      sc.StateAction = .Remove ∧ sc.InstanceID = inst.InstanceID ∧ sc.Value = "") ∧
    (∀ (c : medchainContract) (rst2 : ReadOnlyStateTrie) (vals2 : Values),
      rst2.GetValues inst.InstanceID = .ok vals2 → vals2.darcID = vals.darcID →
      medchainContract.Delete X c rst2 inst coins =
        medchainContract.Delete X c rst inst coins) := by
  refine ⟨?_, ?_, ?_, ?_⟩
  · intro c
    simp [ContractAccessRight.Delete, hget, NewStateChange]
  · intro c rst2 vals2 h2 hd
    simp [ContractAccessRight.Delete, hget, h2, hd]
  · intro c
    exact ⟨⟨.Remove, inst.InstanceID, MedchainContractID, "", vals.darcID⟩, coins,
      by simp [medchainContract.Delete, hget, NewStateChange], rfl, rfl, rfl⟩
  · intro c rst2 vals2 h2 hd
    simp [medchainContract.Delete, hget, h2, hd]

/-- Witness of C8: Delete on the access-right instance `inst1`, whose stored
value is `u1|read`, returns one Remove at `inst1` with an empty payload. -/
theorem delete_one_remove_witness :
    ContractAccessRight.Delete demoX demoAR demoRst demoDeleteAR demoCoins =
      (demoAR, .ret ⟨[⟨.Remove, "inst1", "accessright", "", "darc1"⟩], demoCoins, none⟩) ∧
    ∃ (sc : StateChange) (cout : List Coin),
      medchainContract.Delete demoX demoQC demoRst demoDelete demoCoins =
        (demoQC, .ret ⟨[sc], cout, none⟩) ∧
      sc.StateAction = .Remove ∧ sc.InstanceID = demoDelete.InstanceID ∧ sc.Value = "" :=
  ⟨(delete_one_remove demoX demoRst demoDeleteAR demoCoins demoVals rfl).1 demoAR,
    (delete_one_remove demoX demoRst demoDelete demoCoins demoQVals rfl).2.2.1 demoQC⟩

/-! ## Unsupported commands, and the resource bucket -/

/-- C9. Unsupported commands are rejected: on an invoke instruction whose command
is none of "add", "update", "delete", Invoke of the access-right contract returns
an error and no state-change; on one whose command is not "update", Invoke of the
query contract returns an error and no state-change; whatever the snapshot, the
stored value and the arguments are.  When the lookup succeeds the error is the
unsupported-command error of the contract. -/
theorem invoke_unsupported_command (X : Externals) (rst : ReadOnlyStateTrie)
    (inst : Instruction) (coins : List Coin) (iv : Invoke)
    (hinv : inst.Invoke = some iv) :
    (iv.Command ≠ "add" → iv.Command ≠ "update" → iv.Command ≠ "delete" →
      ∀ c : ContractAccessRight, ∃ r : Ret,
        ContractAccessRight.Invoke X c rst inst coins = (c, .ret r) ∧
        r.err ≠ none ∧ r.sc = [] ∧
        (∀ vals, rst.GetValues inst.InstanceID = .ok vals →
          r.err = some (.new
            "AccessRight contract can only update, delete or modify the access"))) ∧
    (iv.Command ≠ "update" →
      ∀ c : medchainContract, ∃ r : Ret,
        medchainContract.Invoke X c rst inst coins = (c, .ret r) ∧
        r.err ≠ none ∧ r.sc = [] ∧
        (∀ vals, rst.GetValues inst.InstanceID = .ok vals →
          r.err = some (.new "MedChain contract only supports spwan/update requests"))) := by
  constructor
  · intro h1 h2 h3 c
    rcases hg : rst.GetValues inst.InstanceID with e | vals
    · exact ⟨⟨[], coins, some e⟩, by simp [ContractAccessRight.Invoke, hg], by simp, rfl,
        by simp⟩
    · exact ⟨⟨[], [], some (.new
          "AccessRight contract can only update, delete or modify the access")⟩,
        by simp [ContractAccessRight.Invoke, hg, hinv, h1, h2, h3], by simp, rfl,
        by simp⟩
  · intro h c
    rcases hg : rst.GetValues inst.InstanceID with e | vals
    · exact ⟨⟨[], coins, some e⟩, by simp [medchainContract.Invoke, hg], by simp, rfl,
        by simp⟩
    · exact ⟨⟨[], [], some (.new "MedChain contract only supports spwan/update requests")⟩,
        by simp [medchainContract.Invoke, hg, hinv, h], by simp, rfl, by simp⟩

/-- Witness of C9: the command "grant" on the access-right instance. -/
theorem invoke_unsupported_command_witness :
    ∃ r : Ret,
      ContractAccessRight.Invoke demoX demoAR demoRst (demoInvoke "grant" []) demoCoins =
        (demoAR, .ret r) ∧
      r.err ≠ none ∧ r.sc = [] ∧
      (∀ vals, demoRst.GetValues (demoInvoke "grant" []).InstanceID = .ok vals →
        r.err = some (.new
          "AccessRight contract can only update, delete or modify the access")) :=
  (invoke_unsupported_command demoX demoRst (demoInvoke "grant" []) demoCoins
    ⟨"accessright", "grant", []⟩ rfl).1 (by decide) (by decide) (by decide) demoAR

/-- C10 as stated fails: an invoke with an unsupported command fails and returns a
nil bucket, not the one coin passed in. -/
theorem coins_dropped_counterexample :
    (ContractAccessRight.Invoke demoX demoAR demoRst (demoInvoke "grant" []) demoCoins).2 =
      .ret ⟨[], [], some (.new
        "AccessRight contract can only update, delete or modify the access")⟩ ∧
    ([] : List Coin) ≠ demoCoins :=
  ⟨by decide, by decide⟩

/-- C10, amended. The resource bucket is passed through on success: for every call
that returns of a method the two source files define (Spawn, Invoke and Delete
of the access-right contract, Spawn and Invoke of the query contract), with any
snapshot, instruction and coins, a successful call returns the coins passed in.
A failed call returns the coins passed in when the failure is the snapshot
lookup failing in a method that leaves by a bare `return` (all three of the
access-right contract, and Invoke of the query contract), and a nil bucket on
every other failure. -/
theorem coins_passed_on_success (X : Externals) (rst : ReadOnlyStateTrie)
    (inst : Instruction) (coins : List Coin) (r : Ret) :
    (∀ c : ContractAccessRight,
      ((ContractAccessRight.Spawn X c rst inst coins).2 = .ret r ∨
        (ContractAccessRight.Invoke X c rst inst coins).2 = .ret r ∨
        (ContractAccessRight.Delete X c rst inst coins).2 = .ret r) →
      (r.err = none → r.cout = coins) ∧
      (r.err ≠ none → (∃ e, rst.GetValues inst.InstanceID = .error e) → r.cout = coins) ∧
      (r.err ≠ none → (∃ v, rst.GetValues inst.InstanceID = .ok v) → r.cout = [])) ∧
    (∀ c : medchainContract,
      (medchainContract.Invoke X c rst inst coins).2 = .ret r →
      (r.err = none → r.cout = coins) ∧
      (r.err ≠ none → (∃ e, rst.GetValues inst.InstanceID = .error e) → r.cout = coins) ∧
      (r.err ≠ none → (∃ v, rst.GetValues inst.InstanceID = .ok v) → r.cout = [])) ∧
    (∀ c : medchainContract,
      (medchainContract.Spawn X c rst inst coins).2 = .ret r →
      (r.err = none → r.cout = coins) ∧ (r.err ≠ none → r.cout = [])) := by
  refine ⟨?_, ?_, ?_⟩
  · intro c h
    rcases hg : rst.GetValues inst.InstanceID with e | vals
    · have hr : r = ⟨[], coins, some e⟩ := by
        rcases h with h | h | h
        · simpa [ContractAccessRight.Spawn, hg] using h.symm
        · simpa [ContractAccessRight.Invoke, hg] using h.symm
        · simpa [ContractAccessRight.Delete, hg] using h.symm
      subst hr
      simp
    · rcases h with h | h | h
      · rcases hs : inst.Spawn with _ | sp
        · simp [ContractAccessRight.Spawn, hg, hs] at h
        · simp [ContractAccessRight.Spawn, hg, hs] at h
          subst h
          simp
      · rcases hi : inst.Invoke with _ | iv
        · simp [ContractAccessRight.Invoke, hg, hi] at h
        · simp only [ContractAccessRight.Invoke, hg, hi, emitUpdate] at h
          repeat' split at h
          all_goals first
            | (simp at h; done)
            | (simp at h; subst h; simp)
      · simp [ContractAccessRight.Delete, hg] at h
        subst h
        simp
  · intro c h
    rcases hg : rst.GetValues inst.InstanceID with e | vals
    · simp [medchainContract.Invoke, hg] at h
      subst h
      simp
    · rcases hi : inst.Invoke with _ | iv
      · simp [medchainContract.Invoke, hg, hi] at h
      · simp only [medchainContract.Invoke, hg, hi] at h
        repeat' split at h
        all_goals first
          | (simp at h; done)
          | (simp at h; subst h; simp)
  · intro c h
    rcases hg : rst.GetValues inst.InstanceID with e | vals
    · simp [medchainContract.Spawn, hg] at h
      subst h
      simp
    · rcases hs : inst.Spawn with _ | sp
      · simp [medchainContract.Spawn, hg, hs] at h
      · simp only [medchainContract.Spawn, hg, hs] at h
        repeat' split at h
        all_goals first
          | (simp at h; done)
          | (simp at h; subst h; simp)

/-- Witness of C10, amended: a successful "add" returns the one coin passed in. -/
theorem coins_passed_on_success_witness :
    (ContractAccessRight.Invoke demoX demoAR demoRst
        (demoInvoke "add" [⟨"id", "u2"⟩, ⟨"ar", "write"⟩]) demoCoins).2 =
      .ret ⟨[⟨.Update, "inst1", "accessright", "u1,u2|read,write", "darc1"⟩],
        demoCoins, none⟩ ∧
    (Ret.mk [⟨.Update, "inst1", "accessright", "u1,u2|read,write", "darc1"⟩]
        demoCoins none).cout = demoCoins :=
  ⟨by decide,
    ((coins_passed_on_success demoX demoRst
        (demoInvoke "add" [⟨"id", "u2"⟩, ⟨"ar", "write"⟩]) demoCoins
        ⟨[⟨.Update, "inst1", "accessright", "u1,u2|read,write", "darc1"⟩], demoCoins, none⟩).1
      demoAR (Or.inr (Or.inl (by decide)))).1 rfl⟩


/-! ## The three commands, as equations -/

theorem emitUpdate_eq (X : Externals) (inst : Instruction) (coins : List Coin)
    (darcID : DarcID) (ar : AccessRight) :
    emitUpdate X inst coins darcID ar =
      .ret ⟨[⟨.Update, inst.InstanceID, ContractAccessRightID,
        (X.EncodeAccessRight ar).1, darcID⟩], coins, none⟩ := by
  simp [emitUpdate, NewStateChange]

theorem sliceAssign_of_lt (s : List String) (i : Nat) (x : String) (h : i < s.length) :
    sliceAssign s (i : Int) x = some (s.set i x) := by
  simp [sliceAssign, h]

theorem sliceAssign_of_ge (s : List String) (i : Nat) (x : String) (h : s.length ≤ i) :
    sliceAssign s (i : Int) x = none := by
  simp [sliceAssign]; omega

theorem sliceCut_of_lt (s : List String) (i : Nat) (h : i < s.length) :
    sliceCut s (i : Int) = some (s.eraseIdx i) := by
  simp [sliceCut, List.eraseIdx_eq_take_drop_succ]; omega

theorem sliceCut_of_ge (s : List String) (i : Nat) (h : s.length ≤ i) :
    sliceCut s (i : Int) = none := by
  simp [sliceCut]; omega

theorem invoke_add_eq (X : Externals) (c : ContractAccessRight)
    (rst : ReadOnlyStateTrie) (inst : Instruction) (coins : List Coin) (iv : Invoke)
    (vals : Values) (r : AccessRight)
    (hget : rst.GetValues inst.InstanceID = .ok vals)
    (hinv : inst.Invoke = some iv) (hcmd : iv.Command = "add")
    (hdec : X.DecodeAccessRight vals.value = .ok r) :
    ContractAccessRight.Invoke X c rst inst coins =
      if iv.Args.Search "id" ∈ r.Ids then
        (c, .ret ⟨[], [], some (.new "The id is already registered")⟩)
      else
        (c, emitUpdate X inst coins vals.darcID
          ⟨r.Ids ++ [iv.Args.Search "id"], r.Access ++ [iv.Args.Search "ar"]⟩) := by
  by_cases h : iv.Args.Search "id" ∈ r.Ids
  · simp [ContractAccessRight.Invoke, hget, hinv, hcmd, hdec, Find_fst_ne_neg_one _ _ h, h]
  · simp [ContractAccessRight.Invoke, hget, hinv, hcmd, hdec, Find_fst_of_not_mem _ _ h, h]

theorem invoke_update_eq (X : Externals) (c : ContractAccessRight)
    (rst : ReadOnlyStateTrie) (inst : Instruction) (coins : List Coin) (iv : Invoke)
    (vals : Values) (r : AccessRight)
    (hget : rst.GetValues inst.InstanceID = .ok vals)
    (hinv : inst.Invoke = some iv) (hcmd : iv.Command = "update")
    (hdec : X.DecodeAccessRight vals.value = .ok r) :
    ContractAccessRight.Invoke X c rst inst coins =
      if iv.Args.Search "id" ∈ r.Ids then
        if r.Ids.indexOf (iv.Args.Search "id") < r.Access.length then
          (c, emitUpdate X inst coins vals.darcID
            ⟨r.Ids, r.Access.set (r.Ids.indexOf (iv.Args.Search "id")) (iv.Args.Search "ar")⟩)
        else (c, .goPanic)
      else
        (c, .ret ⟨[], [], some (.new "There is no such value")⟩) := by
  by_cases h : iv.Args.Search "id" ∈ r.Ids
  · have hne := Find_fst_ne_neg_one _ _ h
    by_cases hl : r.Ids.indexOf (iv.Args.Search "id") < r.Access.length
    · have hs := sliceAssign_of_lt r.Access _ (iv.Args.Search "ar") hl
      rw [← Find_fst_of_mem _ _ h] at hs
      simp [ContractAccessRight.Invoke, hget, hinv, hcmd, hdec, hne, hs, h, hl]
    · have hs := sliceAssign_of_ge r.Access _ (iv.Args.Search "ar") (Nat.le_of_not_lt hl)
      rw [← Find_fst_of_mem _ _ h] at hs
      simp [ContractAccessRight.Invoke, hget, hinv, hcmd, hdec, hne, hs, h, hl]
  · simp [ContractAccessRight.Invoke, hget, hinv, hcmd, hdec, Find_fst_of_not_mem _ _ h, h]

theorem invoke_delete_eq (X : Externals) (c : ContractAccessRight)
    (rst : ReadOnlyStateTrie) (inst : Instruction) (coins : List Coin) (iv : Invoke)
    (vals : Values) (r : AccessRight)
    (hget : rst.GetValues inst.InstanceID = .ok vals)
    (hinv : inst.Invoke = some iv) (hcmd : iv.Command = "delete")
    (hdec : X.DecodeAccessRight vals.value = .ok r) :
    ContractAccessRight.Invoke X c rst inst coins =
      if iv.Args.Search "id" ∈ r.Ids then
        if r.Ids.indexOf (iv.Args.Search "id") < r.Access.length then
          (c, emitUpdate X inst coins vals.darcID
            ⟨r.Ids.eraseIdx (r.Ids.indexOf (iv.Args.Search "id")),
             r.Access.eraseIdx (r.Ids.indexOf (iv.Args.Search "id"))⟩)
        else (c, .goPanic)
      else
        (c, .ret ⟨[], [], some (.new "There is no such value")⟩) := by
  by_cases h : iv.Args.Search "id" ∈ r.Ids
  · have hne := Find_fst_ne_neg_one _ _ h
    have hi := sliceCut_of_lt r.Ids _ (List.indexOf_lt_length.mpr h)
    rw [← Find_fst_of_mem _ _ h] at hi
    by_cases hl : r.Ids.indexOf (iv.Args.Search "id") < r.Access.length
    · have hs := sliceCut_of_lt r.Access _ hl
      rw [← Find_fst_of_mem _ _ h] at hs
      simp [ContractAccessRight.Invoke, hget, hinv, hcmd, hdec, hne, hs, hi, h, hl]
    · have hs := sliceCut_of_ge r.Access _ (Nat.le_of_not_lt hl)
      rw [← Find_fst_of_mem _ _ h] at hs
      simp [ContractAccessRight.Invoke, hget, hinv, hcmd, hdec, hne, hs, h, hl]
  · simp [ContractAccessRight.Invoke, hget, hinv, hcmd, hdec, Find_fst_of_not_mem _ _ h, h]

/-! ## Encode failures -/

/-- C11, as the code behaves. In Invoke "add", "update" and "delete" of the
access-right contract, when the lookup and the decode succeed, the id check of
the command passes and the encoder reports a failure for the mutated record, the
call still returns no error and one Update, whose payload is the buffer the
failed encoder handed back: the test after `Encode` reads `err`, not `err2`. -/
theorem encode_failure_not_reported (X : Externals) (c : ContractAccessRight)
    (rst : ReadOnlyStateTrie) (inst : Instruction) (coins : List Coin) (iv : Invoke)
    (vals : Values) (r : AccessRight)
    (hget : rst.GetValues inst.InstanceID = .ok vals)
    (hinv : inst.Invoke = some iv)
    (hdec : X.DecodeAccessRight vals.value = .ok r)
    (hlen : r.Ids.length = r.Access.length) :
    (iv.Command = "add" → iv.Args.Search "id" ∉ r.Ids →
      (X.EncodeAccessRight
        ⟨r.Ids ++ [iv.Args.Search "id"], r.Access ++ [iv.Args.Search "ar"]⟩).2 ≠ none →
      ContractAccessRight.Invoke X c rst inst coins =
        (c, .ret ⟨[⟨.Update, inst.InstanceID, ContractAccessRightID,
          (X.EncodeAccessRight
            ⟨r.Ids ++ [iv.Args.Search "id"], r.Access ++ [iv.Args.Search "ar"]⟩).1,
          vals.darcID⟩], coins, none⟩)) ∧
    (iv.Command = "update" → iv.Args.Search "id" ∈ r.Ids →
      (X.EncodeAccessRight
        ⟨r.Ids, r.Access.set (r.Ids.indexOf (iv.Args.Search "id"))
          (iv.Args.Search "ar")⟩).2 ≠ none →
      ContractAccessRight.Invoke X c rst inst coins =
        (c, .ret ⟨[⟨.Update, inst.InstanceID, ContractAccessRightID,
          (X.EncodeAccessRight
            ⟨r.Ids, r.Access.set (r.Ids.indexOf (iv.Args.Search "id"))
              (iv.Args.Search "ar")⟩).1,
          vals.darcID⟩], coins, none⟩)) ∧
    (iv.Command = "delete" → iv.Args.Search "id" ∈ r.Ids →
      (X.EncodeAccessRight
        ⟨r.Ids.eraseIdx (r.Ids.indexOf (iv.Args.Search "id")),
         r.Access.eraseIdx (r.Ids.indexOf (iv.Args.Search "id"))⟩).2 ≠ none →
      ContractAccessRight.Invoke X c rst inst coins =
        (c, .ret ⟨[⟨.Update, inst.InstanceID, ContractAccessRightID,
          (X.EncodeAccessRight
            ⟨r.Ids.eraseIdx (r.Ids.indexOf (iv.Args.Search "id")),
             r.Access.eraseIdx (r.Ids.indexOf (iv.Args.Search "id"))⟩).1,
          vals.darcID⟩], coins, none⟩)) := by
  refine ⟨?_, ?_, ?_⟩
  · intro hcmd h _
    rw [invoke_add_eq X c rst inst coins iv vals r hget hinv hcmd hdec, if_neg h,
      emitUpdate_eq]
  · intro hcmd h _
    have hl : r.Ids.indexOf (iv.Args.Search "id") < r.Access.length :=
      hlen ▸ List.indexOf_lt_length.mpr h
    rw [invoke_update_eq X c rst inst coins iv vals r hget hinv hcmd hdec, if_pos h,
      if_pos hl, emitUpdate_eq]
  · intro hcmd h _
    have hl : r.Ids.indexOf (iv.Args.Search "id") < r.Access.length :=
      hlen ▸ List.indexOf_lt_length.mpr h
    rw [invoke_delete_eq X c rst inst coins iv vals r hget hinv hcmd hdec, if_pos h,
      if_pos hl, emitUpdate_eq]

/-- Witness of C11: "add" of `u2` with an encoder that fails returns no error
and one Update with the empty buffer of the failed encoder. -/
theorem encode_failure_not_reported_witness :
    (demoFailX.EncodeAccessRight ⟨["u1", "u2"], ["read", "write"]⟩).2 =
      some (.new "encode failed") ∧
    ContractAccessRight.Invoke demoFailX demoAR demoRst
        (demoInvoke "add" [⟨"id", "u2"⟩, ⟨"ar", "write"⟩]) demoCoins =
      (demoAR, .ret ⟨[⟨.Update, "inst1", "accessright", "", "darc1"⟩], demoCoins, none⟩) :=
  ⟨rfl, (encode_failure_not_reported demoFailX demoAR demoRst
    (demoInvoke "add" [⟨"id", "u2"⟩, ⟨"ar", "write"⟩]) demoCoins
    ⟨"accessright", "add", [⟨"id", "u2"⟩, ⟨"ar", "write"⟩]⟩ demoVals ⟨["u1"], ["read"]⟩
    rfl rfl rfl rfl).1 rfl (by decide) (by decide)⟩

/-! ## The receiver after a call -/

/-- C12 as stated fails: Spawn of the query contract leaves its receiver with the
argument records appended, and Invoke "update" leaves it with the updated list;
neither is the receiver the call started from. -/
theorem receiver_mutated_counterexample :
    (medchainContract.Spawn demoX demoQC demoRst (demoSpawn [⟨"k1", "v1"⟩]) demoCoins).1 =
      ⟨⟨[⟨"k1", "v1"⟩]⟩⟩ ∧
    (medchainContract.Invoke demoX demoQC demoRst (demoInvokeQ "update" [⟨"k1", "v1"⟩])
      demoCoins).1 = ⟨⟨[⟨"k1", "v1"⟩]⟩⟩ ∧
    (medchainContract.Invoke demoX demoQC demoRst (demoInvokeQ "update" [⟨"k1", "v1"⟩])
      demoCoins).2.succeeds = true ∧
    demoQC ≠ ⟨⟨[⟨"k1", "v1"⟩]⟩⟩ :=
  ⟨by decide, by decide, by decide, by decide⟩

/-- C12, amended. Spawn and Invoke of the access-right contract leave the receiver
as it was.  The query contract works on its receiver in place: once the lookup
has succeeded, Spawn leaves the receiver's record list followed by the argument
records, and Invoke "update" leaves the updated list; on success the payload of
the returned state-change is the encoding of that receiver.  The receiver of the
query contract is unchanged when the lookup fails or the command is not
"update". -/
theorem receiver_after_call (X : Externals) (rst : ReadOnlyStateTrie)
    (inst : Instruction) (coins : List Coin) :
    (∀ c : ContractAccessRight,
      (ContractAccessRight.Spawn X c rst inst coins).1 = c ∧
      (ContractAccessRight.Invoke X c rst inst coins).1 = c) ∧
    (∀ c : medchainContract,
      (∀ e, rst.GetValues inst.InstanceID = .error e →
        (medchainContract.Spawn X c rst inst coins).1 = c ∧
        (medchainContract.Invoke X c rst inst coins).1 = c) ∧
      (∀ vals sp, rst.GetValues inst.InstanceID = .ok vals → inst.Spawn = some sp →
        (medchainContract.Spawn X c rst inst coins).1 =
          ⟨⟨c.QueryData.Storage ++ argRecords sp.Args⟩⟩) ∧
      (∀ vals iv, rst.GetValues inst.InstanceID = .ok vals → inst.Invoke = some iv →
        (iv.Command = "update" →
          (medchainContract.Invoke X c rst inst coins).1 = ⟨c.QueryData.Update iv.Args⟩) ∧
        (iv.Command ≠ "update" →
          (medchainContract.Invoke X c rst inst coins).1 = c)) ∧
      (∀ r, ((medchainContract.Spawn X c rst inst coins).2 = .ret r → r.err = none →
          ∃ sc, r.sc = [sc] ∧ sc.Value =
            (X.EncodeQueryData (medchainContract.Spawn X c rst inst coins).1.QueryData).1) ∧
        ((medchainContract.Invoke X c rst inst coins).2 = .ret r → r.err = none →
          ∃ sc, r.sc = [sc] ∧ sc.Value =
            (X.EncodeQueryData
              (medchainContract.Invoke X c rst inst coins).1.QueryData).1))) := by
  refine ⟨fun c => ⟨?_, ?_⟩, fun c => ⟨?_, ?_, ?_, ?_⟩⟩
  · simp only [ContractAccessRight.Spawn]
    repeat' split
    all_goals rfl
  · simp only [ContractAccessRight.Invoke]
    repeat' split
    all_goals rfl
  · intro e he
    simp [medchainContract.Spawn, medchainContract.Invoke, he]
  · intro vals sp hg hs
    simp only [medchainContract.Spawn, hg, hs, foldl_append_record, argRecords]
    split <;> rfl
  · intro vals iv hg hi
    constructor
    · intro hc
      simp only [medchainContract.Invoke, hg, hi, hc]
      simp only [ne_eq, not_true_eq_false, ↓reduceIte]
      split <;> rfl
    · intro hc
      simp [medchainContract.Invoke, hg, hi, hc]
  · intro r
    constructor
    · intro h hr
      rcases hg : rst.GetValues inst.InstanceID with e | vals
      · simp [medchainContract.Spawn, hg] at h
        subst h
        simp at hr
      · rcases hs : inst.Spawn with _ | sp
        · simp [medchainContract.Spawn, hg, hs] at h
        · simp only [medchainContract.Spawn, hg, hs] at h ⊢
          rcases hX : X.EncodeQueryData
              ⟨sp.Args.foldl (fun storage kv => storage ++ [⟨kv.Name, kv.Value⟩])
                c.QueryData.Storage⟩ with ⟨buf, err⟩
          rw [hX] at h
          cases err with
          | some e => simp at h; subst h; simp at hr
          | none => simp at h; subst h; simp [NewStateChange, hX]
    · intro h hr
      rcases hg : rst.GetValues inst.InstanceID with e | vals
      · simp [medchainContract.Invoke, hg] at h
        subst h
        simp at hr
      · rcases hi : inst.Invoke with _ | iv
        · simp [medchainContract.Invoke, hg, hi] at h
        · by_cases hc : iv.Command = "update"
          · simp only [medchainContract.Invoke, hg, hi, hc, ne_eq, not_true_eq_false,
              ↓reduceIte] at h ⊢
            rcases hX : X.EncodeQueryData (c.QueryData.Update iv.Args) with ⟨buf, err⟩
            rw [hX] at h
            cases err with
            | some e => simp at h; subst h; simp at hr
            | none => simp at h; subst h; simp [NewStateChange, hX]
          · simp [medchainContract.Invoke, hg, hi, hc] at h
            subst h
            simp at hr

/-! ## The address Spawn reads and the address it creates -/

/-- C13 as stated fails: Spawn of the access-right contract sent to `inst1` finds
the ownership reference `darc1` stored at `inst1` and creates the instance at the
derived address `derived/inst1`, an address the snapshot does not hold. -/
theorem spawn_lookup_address_counterexample :
    ContractAccessRight.Spawn demoX demoAR demoRst (demoSpawnAR [⟨"ar", "u1|read"⟩])
        demoCoins =
      (demoAR, .ret ⟨[⟨.Create, "derived/inst1", "accessright", "u1|read", "darc1"⟩],
        demoCoins, none⟩) ∧
    (demoSpawnAR [⟨"ar", "u1|read"⟩]).InstanceID = "inst1" ∧
    demoRst.GetValues "inst1" = .ok demoVals ∧
    demoRst.GetValues "derived/inst1" = .error (.new "no such key") ∧
    ("inst1" : InstanceID) ≠ "derived/inst1" :=
  ⟨by decide, rfl, rfl, rfl, by decide⟩

/-- C13, amended. Spawn of the access-right contract reads the ownership
reference at the instruction's own instance address `inst.InstanceID` and at no
other address (two snapshots that agree there give the same result), while the
Create it emits targets the derived address `inst.DeriveID("")` and carries the
reference found. -/
theorem spawn_reads_instruction_address (X : Externals) (c : ContractAccessRight)
    (rst : ReadOnlyStateTrie) (inst : Instruction) (coins : List Coin) (sp : Spawn)
    (hsp : inst.Spawn = some sp) :
    (∀ vals, rst.GetValues inst.InstanceID = .ok vals →
      ContractAccessRight.Spawn X c rst inst coins =
        (c, .ret ⟨[⟨.Create, X.DeriveID inst "", ContractAccessRightID,
          sp.Args.Search "ar", vals.darcID⟩], coins, none⟩)) ∧
    (∀ e, rst.GetValues inst.InstanceID = .error e →
      ContractAccessRight.Spawn X c rst inst coins = (c, .ret ⟨[], coins, some e⟩)) ∧
    (∀ rst2 : ReadOnlyStateTrie,
      rst2.GetValues inst.InstanceID = rst.GetValues inst.InstanceID →
      ContractAccessRight.Spawn X c rst2 inst coins =
        ContractAccessRight.Spawn X c rst inst coins) := by
  refine ⟨?_, ?_, ?_⟩
  · intro vals hg
    simp [ContractAccessRight.Spawn, hg, hsp, NewStateChange]
  · intro e hg
    simp [ContractAccessRight.Spawn, hg]
  · intro rst2 h
    simp [ContractAccessRight.Spawn, h]

/-- Witness of C13, amended: the spawn sent to `inst1`. -/
theorem spawn_reads_instruction_address_witness :
    ContractAccessRight.Spawn demoX demoAR demoRst (demoSpawnAR [⟨"ar", "u1|read"⟩])
        demoCoins =
      (demoAR, .ret ⟨[⟨.Create, demoX.DeriveID (demoSpawnAR [⟨"ar", "u1|read"⟩]) "",
        ContractAccessRightID, "u1|read", "darc1"⟩], demoCoins, none⟩) :=
  (spawn_reads_instruction_address demoX demoAR demoRst (demoSpawnAR [⟨"ar", "u1|read"⟩])
    demoCoins ⟨"accessright", [⟨"ar", "u1|read"⟩]⟩ rfl).1 demoVals rfl


/-! ## The ownership reference, lookup failures, and the result shape -/

/-- C14. The ownership reference is forwarded unchanged: whenever Spawn, Invoke or
Delete of either component returns without an error, the snapshot lookup at the
instruction's instance address had succeeded, the call returns exactly one
state-change, and that state-change carries the reference the lookup returned,
whatever the command, the arguments and the stored value are.  Delete of the
query contract, which `contract.go` does not declare, is the Delete of
section 4.2 of the specification. -/
theorem darc_forwarded (X : Externals) (rst : ReadOnlyStateTrie) (inst : Instruction)
    (coins : List Coin) (r : Ret) :
    (∀ c : ContractAccessRight,
      ((ContractAccessRight.Spawn X c rst inst coins).2 = .ret r ∨
        (ContractAccessRight.Invoke X c rst inst coins).2 = .ret r ∨
        (ContractAccessRight.Delete X c rst inst coins).2 = .ret r) →
      r.err = none →
      ∃ vals sc, rst.GetValues inst.InstanceID = .ok vals ∧ r.sc = [sc] ∧
        sc.DarcID = vals.darcID) ∧
    (∀ c : medchainContract,
      ((medchainContract.Spawn X c rst inst coins).2 = .ret r ∨
        (medchainContract.Invoke X c rst inst coins).2 = .ret r ∨
        (medchainContract.Delete X c rst inst coins).2 = .ret r) →
      r.err = none →
      ∃ vals sc, rst.GetValues inst.InstanceID = .ok vals ∧ r.sc = [sc] ∧
        sc.DarcID = vals.darcID) := by
  constructor
  · intro c h hr
    rcases hg : rst.GetValues inst.InstanceID with e | vals
    · have hr2 : r = ⟨[], coins, some e⟩ := by
        rcases h with h | h | h
        · simpa [ContractAccessRight.Spawn, hg] using h.symm
        · simpa [ContractAccessRight.Invoke, hg] using h.symm
        · simpa [ContractAccessRight.Delete, hg] using h.symm
      subst hr2
      simp at hr
    · refine ⟨vals, ?_⟩
      rcases h with h | h | h
      · rcases hs : inst.Spawn with _ | sp
        · simp [ContractAccessRight.Spawn, hg, hs] at h
        · simp [ContractAccessRight.Spawn, hg, hs] at h
          subst h
          simp [NewStateChange]
      · rcases hi : inst.Invoke with _ | iv
        · simp [ContractAccessRight.Invoke, hg, hi] at h
        · simp only [ContractAccessRight.Invoke, hg, hi, emitUpdate] at h
          repeat' split at h
          all_goals first
            | (simp at h; done)
            | (simp at h; subst h; simp at hr; done)
            | (simp at h; subst h; simp [NewStateChange])
      · simp [ContractAccessRight.Delete, hg] at h
        subst h
        simp [NewStateChange]
  · intro c h hr
    rcases hg : rst.GetValues inst.InstanceID with e | vals
    · have hr2 : r.err ≠ none := by
        rcases h with h | h | h
        · simp [medchainContract.Spawn, hg] at h
          subst h; simp
        · simp [medchainContract.Invoke, hg] at h
          subst h; simp
        · simp [medchainContract.Delete, hg] at h
          subst h; simp
      exact absurd hr hr2
    · refine ⟨vals, ?_⟩
      rcases h with h | h | h
      · rcases hs : inst.Spawn with _ | sp
        · simp [medchainContract.Spawn, hg, hs] at h
        · simp only [medchainContract.Spawn, hg, hs] at h
          repeat' split at h
          all_goals first
            | (simp at h; done)
            | (simp at h; subst h; simp at hr; done)
            | (simp at h; subst h; simp [NewStateChange])
      · rcases hi : inst.Invoke with _ | iv
        · simp [medchainContract.Invoke, hg, hi] at h
        · simp only [medchainContract.Invoke, hg, hi] at h
          repeat' split at h
          all_goals first
            | (simp at h; done)
            | (simp at h; subst h; simp at hr; done)
            | (simp at h; subst h; simp [NewStateChange])
      · simp [medchainContract.Delete, hg] at h
        subst h
        simp [NewStateChange]

/-- Witness of C14: the Update of a successful "add" carries `darc1`, the
reference stored at `inst1`, and the Remove of a Delete on the query instance
carries `darc2`, the reference stored at `inst2`. -/
theorem darc_forwarded_witness :
    (∃ vals sc, demoRst.GetValues (demoInvoke "add" [⟨"id", "u2"⟩]).InstanceID = .ok vals ∧
      (Ret.mk [⟨.Update, "inst1", "accessright", "u1,u2|read,", "darc1"⟩]
        demoCoins none).sc = [sc] ∧
      sc.DarcID = vals.darcID) ∧
    (∃ vals sc, demoRst.GetValues demoDelete.InstanceID = .ok vals ∧
      (Ret.mk [⟨.Remove, "inst2", "queryContract", "", "darc2"⟩]
        demoCoins none).sc = [sc] ∧
      sc.DarcID = vals.darcID) :=
  ⟨(darc_forwarded demoX demoRst (demoInvoke "add" [⟨"id", "u2"⟩]) demoCoins
      ⟨[⟨.Update, "inst1", "accessright", "u1,u2|read,", "darc1"⟩], demoCoins, none⟩).1
      demoAR (Or.inr (Or.inl (by decide))) rfl,
    (darc_forwarded demoX demoRst demoDelete demoCoins
      ⟨[⟨.Remove, "inst2", "queryContract", "", "darc2"⟩], demoCoins, none⟩).2
      demoQC (Or.inr (Or.inr (by decide))) rfl⟩

theorem errorf_ne_arg (format : String) (e : Error) : Error.errorf format e ≠ e := by
  intro h
  have hs := congrArg sizeOf h
  simp at hs

/-- C15 as stated fails: Spawn of the query contract, sent to an address the
snapshot does not hold, returns a new error built around the lookup error, not
the lookup error itself. -/
theorem lookup_error_wrapped_counterexample :
    demoRst.GetValues demoSpawnNowhere.InstanceID = .error (.new "no such key") ∧
    (medchainContract.Spawn demoX demoQC demoRst demoSpawnNowhere demoCoins).2 =
      .ret ⟨[], [], some (.errorf "failed to get the darc ID: %v" (.new "no such key"))⟩ ∧
    Error.errorf "failed to get the darc ID: %v" (.new "no such key") ≠
      Error.new "no such key" :=
  ⟨rfl, by decide, by decide⟩

/-- C15, amended. When the snapshot accessor fails with the error `e`, Spawn,
Invoke and Delete of the access-right contract and Invoke of the query contract
return that same error `e` and no state-change.  Spawn of the query contract
returns no state-change and a new error, `e` formatted into
"failed to get the darc ID: %v", which is not `e`.  These are the five methods
the two source files define. -/
theorem lookup_failure_propagated (X : Externals) (rst : ReadOnlyStateTrie)
    (inst : Instruction) (coins : List Coin) (e : Error)
    (hget : rst.GetValues inst.InstanceID = .error e) :
    (∀ c : ContractAccessRight,
      ContractAccessRight.Spawn X c rst inst coins = (c, .ret ⟨[], coins, some e⟩) ∧
      ContractAccessRight.Invoke X c rst inst coins = (c, .ret ⟨[], coins, some e⟩) ∧
      ContractAccessRight.Delete X c rst inst coins = (c, .ret ⟨[], coins, some e⟩)) ∧
    (∀ c : medchainContract,
      medchainContract.Invoke X c rst inst coins = (c, .ret ⟨[], coins, some e⟩) ∧
      medchainContract.Spawn X c rst inst coins =
        (c, .ret ⟨[], [], some (.errorf "failed to get the darc ID: %v" e)⟩) ∧
      Error.errorf "failed to get the darc ID: %v" e ≠ e) := by
  refine ⟨fun c => ⟨?_, ?_, ?_⟩, fun c => ⟨?_, ?_, errorf_ne_arg _ _⟩⟩
  · simp [ContractAccessRight.Spawn, hget]
  · simp [ContractAccessRight.Invoke, hget]
  · simp [ContractAccessRight.Delete, hget]
  · simp [medchainContract.Invoke, hget]
  · simp [medchainContract.Spawn, hget, Errorf]

/-- Witness of C15, amended: an invoke of the access-right contract sent to an
address the snapshot does not hold returns the lookup error itself. -/
theorem lookup_failure_propagated_witness :
    ContractAccessRight.Invoke demoX demoAR demoRst
        ⟨"nowhere", none, some ⟨"accessright", "add", []⟩⟩ demoCoins =
      (demoAR, .ret ⟨[], demoCoins, some (.new "no such key")⟩) :=
  ((lookup_failure_propagated demoX demoRst
    ⟨"nowhere", none, some ⟨"accessright", "add", []⟩⟩ demoCoins (.new "no such key")
    rfl).1 demoAR).2.1

/-- C16, as the code behaves. Every triple that Spawn, Invoke or Delete of either
component returns has the all-or-nothing shape: an error with an empty list, or
no error with exactly one state-change.  Not every call returns, though: Invoke
"update" on a stored record with one id and no access entry panics on the write
`ar.Access[idx]`.  Invoke of the access-right contract does return whenever the
instruction has its invoke part and the stored record has an access entry for
each id. -/
theorem result_shape_or_panic :
    (ContractAccessRight.Invoke demoBrokenX demoAR demoBrokenRst
      (demoInvoke "update" [⟨"id", "u1"⟩, ⟨"ar", "write"⟩]) demoCoins).2 = .goPanic ∧
    (∀ (X : Externals) (rst : ReadOnlyStateTrie) (inst : Instruction) (coins : List Coin)
      (r : Ret),
      (∀ c : ContractAccessRight,
        ((ContractAccessRight.Spawn X c rst inst coins).2 = .ret r ∨
          (ContractAccessRight.Invoke X c rst inst coins).2 = .ret r ∨
          (ContractAccessRight.Delete X c rst inst coins).2 = .ret r) →
        r.allOrNothing = true) ∧
      (∀ c : medchainContract,
        ((medchainContract.Spawn X c rst inst coins).2 = .ret r ∨
          (medchainContract.Invoke X c rst inst coins).2 = .ret r ∨
          (medchainContract.Delete X c rst inst coins).2 = .ret r) →
        r.allOrNothing = true)) ∧
    (∀ (X : Externals) (c : ContractAccessRight) (rst : ReadOnlyStateTrie)
      (inst : Instruction) (coins : List Coin) (iv : Invoke),
      inst.Invoke = some iv →
      (∀ vals r, rst.GetValues inst.InstanceID = .ok vals →
        X.DecodeAccessRight vals.value = .ok r → r.Ids.length ≤ r.Access.length) →
      ∃ r, (ContractAccessRight.Invoke X c rst inst coins).2 = .ret r) := by
  refine ⟨by decide, ?_, ?_⟩
  · intro X rst inst coins r
    constructor
    · intro c h
      rcases h with h | h | h
      · simp only [ContractAccessRight.Spawn] at h
        repeat' split at h
        all_goals first
          | (simp at h; done)
          | (simp at h; subst h; simp [Ret.allOrNothing])
      · simp only [ContractAccessRight.Invoke, emitUpdate] at h
        repeat' split at h
        all_goals first
          | (simp at h; done)
          | (simp at h; subst h; simp [Ret.allOrNothing])
      · simp only [ContractAccessRight.Delete] at h
        repeat' split at h
        all_goals first
          | (simp at h; done)
          | (simp at h; subst h; simp [Ret.allOrNothing])
    · intro c h
      rcases h with h | h | h
      · simp only [medchainContract.Spawn] at h
        repeat' split at h
        all_goals first
          | (simp at h; done)
          | (simp at h; subst h; simp [Ret.allOrNothing])
      · simp only [medchainContract.Invoke] at h
        repeat' split at h
        all_goals first
          | (simp at h; done)
          | (simp at h; subst h; simp [Ret.allOrNothing])
      · simp only [medchainContract.Delete] at h
        repeat' split at h
        all_goals first
          | (simp at h; done)
          | (simp at h; subst h; simp [Ret.allOrNothing])
  · intro X c rst inst coins iv hinv hpair
    rcases hg : rst.GetValues inst.InstanceID with e | vals
    · exact ⟨⟨[], coins, some e⟩, by simp [ContractAccessRight.Invoke, hg]⟩
    · rcases hd : X.DecodeAccessRight vals.value with e | r
      · by_cases h1 : iv.Command = "add"
        · exact ⟨_, by simp [ContractAccessRight.Invoke, hg, hinv, h1, hd]; rfl⟩
        · by_cases h2 : iv.Command = "update"
          · exact ⟨_, by simp [ContractAccessRight.Invoke, hg, hinv, h2, hd]; rfl⟩
          · by_cases h3 : iv.Command = "delete"
            · exact ⟨_, by simp [ContractAccessRight.Invoke, hg, hinv, h3, hd]; rfl⟩
            · exact ⟨_, by simp [ContractAccessRight.Invoke, hg, hinv, h1, h2, h3]; rfl⟩
      · have hp := hpair vals r hg hd
        by_cases h1 : iv.Command = "add"
        · rw [invoke_add_eq X c rst inst coins iv vals r hg hinv h1 hd]
          split
          · exact ⟨_, rfl⟩
          · exact ⟨_, emitUpdate_eq _ _ _ _ _⟩
        · by_cases h2 : iv.Command = "update"
          · rw [invoke_update_eq X c rst inst coins iv vals r hg hinv h2 hd]
            split
            · rename_i hm
              have hl : r.Ids.indexOf (iv.Args.Search "id") < r.Access.length :=
                Nat.lt_of_lt_of_le (List.indexOf_lt_length.mpr hm) hp
              rw [if_pos hl]
              exact ⟨_, emitUpdate_eq _ _ _ _ _⟩
            · exact ⟨_, rfl⟩
          · by_cases h3 : iv.Command = "delete"
            · rw [invoke_delete_eq X c rst inst coins iv vals r hg hinv h3 hd]
              split
              · rename_i hm
                have hl : r.Ids.indexOf (iv.Args.Search "id") < r.Access.length :=
                  Nat.lt_of_lt_of_le (List.indexOf_lt_length.mpr hm) hp
                rw [if_pos hl]
                exact ⟨_, emitUpdate_eq _ _ _ _ _⟩
              · exact ⟨_, rfl⟩
            · exact ⟨_, by simp [ContractAccessRight.Invoke, hg, hinv, h1, h2, h3]; rfl⟩


/-! ## Well-formedness of the access-right record -/

/-- C17. Well-formedness is an invariant of the mutation commands: for a stored
record `r` with `len(r.Ids) = len(r.Access)` and pairwise distinct `Ids`, every
Invoke "add", "update" or "delete" that returns without an error emits one
Update whose payload is the encoding of a record (named per command) that again
has `len(Ids) = len(Access)` and pairwise distinct `Ids`. -/
theorem accessright_wellformed_preserved (X : Externals) (c : ContractAccessRight)
    (rst : ReadOnlyStateTrie) (inst : Instruction) (coins : List Coin) (iv : Invoke)
    (vals : Values) (r : AccessRight) (out : Ret)
    (hget : rst.GetValues inst.InstanceID = .ok vals)
    (hinv : inst.Invoke = some iv)
    (hcmd : iv.Command = "add" ∨ iv.Command = "update" ∨ iv.Command = "delete")
    (hdec : X.DecodeAccessRight vals.value = .ok r)
    (hlen : r.Ids.length = r.Access.length) (hnodup : r.Ids.Nodup)
    (hout : (ContractAccessRight.Invoke X c rst inst coins).2 = .ret out)
    (hok : out.err = none) :
    ∃ r2 : AccessRight,
      out.sc = [⟨.Update, inst.InstanceID, ContractAccessRightID,
        (X.EncodeAccessRight r2).1, vals.darcID⟩] ∧
      r2.Ids.length = r2.Access.length ∧ r2.Ids.Nodup ∧
      (iv.Command = "add" →
        r2 = ⟨r.Ids ++ [iv.Args.Search "id"], r.Access ++ [iv.Args.Search "ar"]⟩) ∧
      (iv.Command = "update" →
        r2 = ⟨r.Ids, r.Access.set (r.Ids.indexOf (iv.Args.Search "id"))
          (iv.Args.Search "ar")⟩) ∧
      (iv.Command = "delete" →
        r2 = ⟨r.Ids.eraseIdx (r.Ids.indexOf (iv.Args.Search "id")),
          r.Access.eraseIdx (r.Ids.indexOf (iv.Args.Search "id"))⟩) := by
  rcases hcmd with h1 | h2 | h3
  · rw [invoke_add_eq X c rst inst coins iv vals r hget hinv h1 hdec] at hout
    by_cases hm : iv.Args.Search "id" ∈ r.Ids
    · rw [if_pos hm] at hout
      simp at hout
      subst hout
      simp at hok
    · rw [if_neg hm, emitUpdate_eq] at hout
      simp at hout
      subst hout
      refine ⟨⟨r.Ids ++ [iv.Args.Search "id"], r.Access ++ [iv.Args.Search "ar"]⟩,
        rfl, by simp [hlen], ?_, fun _ => rfl, ?_, ?_⟩
      · exact List.nodup_append.mpr ⟨hnodup, List.nodup_singleton _, by simpa using hm⟩
      · intro h; rw [h1] at h; exact absurd h (by decide)
      · intro h; rw [h1] at h; exact absurd h (by decide)
  · rw [invoke_update_eq X c rst inst coins iv vals r hget hinv h2 hdec] at hout
    by_cases hm : iv.Args.Search "id" ∈ r.Ids
    · have hl : r.Ids.indexOf (iv.Args.Search "id") < r.Access.length :=
        hlen ▸ List.indexOf_lt_length.mpr hm
      rw [if_pos hm, if_pos hl, emitUpdate_eq] at hout
      simp at hout
      subst hout
      refine ⟨⟨r.Ids, r.Access.set (r.Ids.indexOf (iv.Args.Search "id"))
        (iv.Args.Search "ar")⟩, rfl, by simp [hlen], hnodup, ?_, fun _ => rfl, ?_⟩
      · intro h; rw [h2] at h; exact absurd h (by decide)
      · intro h; rw [h2] at h; exact absurd h (by decide)
    · rw [if_neg hm] at hout
      simp at hout
      subst hout
      simp at hok
  · rw [invoke_delete_eq X c rst inst coins iv vals r hget hinv h3 hdec] at hout
    by_cases hm : iv.Args.Search "id" ∈ r.Ids
    · have hi := List.indexOf_lt_length.mpr hm
      have hl : r.Ids.indexOf (iv.Args.Search "id") < r.Access.length := hlen ▸ hi
      rw [if_pos hm, if_pos hl, emitUpdate_eq] at hout
      have hout2 := Outcome.ret.inj hout
      subst hout2
      refine ⟨⟨r.Ids.eraseIdx (r.Ids.indexOf (iv.Args.Search "id")),
        r.Access.eraseIdx (r.Ids.indexOf (iv.Args.Search "id"))⟩, rfl, ?_, ?_, ?_, ?_,
        fun _ => rfl⟩
      · show (r.Ids.eraseIdx _).length = (r.Access.eraseIdx _).length
        rw [List.length_eraseIdx, List.length_eraseIdx, if_pos hi, if_pos hl, hlen]
      · exact hnodup.sublist (List.eraseIdx_sublist _ _)
      · intro h; rw [h3] at h; exact absurd h (by decide)
      · intro h; rw [h3] at h; exact absurd h (by decide)
    · rw [if_neg hm] at hout
      simp at hout
      subst hout
      simp at hok

/-- Witness of C17: adding `u2` to `{Ids:[u1], Access:[read]}` gives a record of
two distinct ids and two access entries. -/
theorem accessright_wellformed_preserved_witness :
    ∃ r2 : AccessRight,
      [(⟨.Update, "inst1", "accessright", "u1,u2|read,write", "darc1"⟩ : StateChange)] =
        [⟨.Update, "inst1", ContractAccessRightID, (demoX.EncodeAccessRight r2).1, "darc1"⟩] ∧
      r2.Ids.length = r2.Access.length ∧ r2.Ids.Nodup ∧
      r2 = ⟨["u1", "u2"], ["read", "write"]⟩ :=
  let ⟨r2, h1, h2, h3, h4, _⟩ :=
    accessright_wellformed_preserved demoX demoAR demoRst
      (demoInvoke "add" [⟨"id", "u2"⟩, ⟨"ar", "write"⟩]) demoCoins
      ⟨"accessright", "add", [⟨"id", "u2"⟩, ⟨"ar", "write"⟩]⟩ demoVals ⟨["u1"], ["read"]⟩
      ⟨[⟨.Update, "inst1", "accessright", "u1,u2|read,write", "darc1"⟩], demoCoins, none⟩
      rfl rfl (Or.inl rfl) rfl rfl (by decide) (by decide) rfl
  ⟨r2, h1, h2, h3, h4 rfl⟩


/-! ## Key uniqueness under Update -/

theorem updateScan_ids_sublist (kv : Argument) (s : List Query) :
    ((updateScan kv s).1.map (fun q => q.ID)).Sublist (s.map (fun q => q.ID)) := by
  induction s with
  | nil => simp [updateScan]
  | cons a t ih =>
    by_cases ha : a.ID = kv.Name
    · by_cases hl : kv.Value.length = 0
      · simp [updateScan, ha, hl]
      · simpa [updateScan, ha, hl] using ih
    · simpa [updateScan, ha] using ih

theorem updateScan_snd_false (kv : Argument) (s : List Query)
    (h : (updateScan kv s).2 = false) : ∀ q ∈ s, q.ID ≠ kv.Name := by
  intro q hq hn
  have := updateScan_snd_of_present kv s ⟨q, hq, hn⟩
  rw [this] at h
  exact absurd h (by decide)

theorem updateArg_ids_nodup (s : List Query) (kv : Argument)
    (h : (s.map (fun q => q.ID)).Nodup) :
    ((updateArg s kv).map (fun q => q.ID)).Nodup := by
  by_cases hu : (updateScan kv s).2 = true
  · have : updateArg s kv = (updateScan kv s).1 := by simp [updateArg, hu]
    rw [this]
    exact h.sublist (updateScan_ids_sublist kv s)
  · have hf : (updateScan kv s).2 = false := by simpa using hu
    have habs := updateScan_snd_false kv s hf
    have : updateArg s kv = s ++ [⟨kv.Name, kv.Value⟩] := by
      simp [updateArg, updateScan_of_absent kv s habs]
    rw [this, List.map_append]
    refine List.nodup_append.mpr ⟨h, by simp, ?_⟩
    intro x hx hy
    simp at hy
    subst hy
    obtain ⟨q, hq, hqx⟩ := List.mem_map.mp hx
    exact habs q hq hqx

/-- C18. `QueryData.Update` preserves key uniqueness: for every record list whose
IDs are pairwise distinct and every argument list (any names, empty or non-empty
values, repeated names allowed), the record list after Update again has pairwise
distinct IDs. -/
theorem querydata_update_keeps_ids_distinct (cs : QueryData) (args : Arguments)
    (h : (cs.Storage.map (fun q => q.ID)).Nodup) :
    ((cs.Update args).Storage.map (fun q => q.ID)).Nodup := by
  obtain ⟨storage⟩ := cs
  simp only [QueryData.Update]
  simp only at h
  induction args generalizing storage with
  | nil => simpa using h
  | cons a t ih => exact ih _ (updateArg_ids_nodup storage a h)

/-- Witness of C18: an overwrite, an erase, an append and a repeated name on a
list of two distinct keys. -/
theorem querydata_update_keeps_ids_distinct_witness :
    (((QueryData.mk [⟨"k1", "v1"⟩, ⟨"k2", "v2"⟩]).Update
      [⟨"k1", "new"⟩, ⟨"k2", ""⟩, ⟨"k3", "v3"⟩, ⟨"k3", ""⟩, ⟨"k2", ""⟩]).Storage.map
        (fun q => q.ID)).Nodup :=
  querydata_update_keeps_ids_distinct ⟨[⟨"k1", "v1"⟩, ⟨"k2", "v2"⟩]⟩
    [⟨"k1", "new"⟩, ⟨"k2", ""⟩, ⟨"k3", "v3"⟩, ⟨"k3", ""⟩, ⟨"k2", ""⟩] (by decide)


/-! ## Idempotence of Update on non-empty values -/

theorem updateArg_of_present (s : List Query) (kv : Argument) (hv : kv.Value ≠ "")
    (h : ∃ q ∈ s, q.ID = kv.Name) : updateArg s kv = s.map (overwrite kv) := by
  have h1 := updateScan_fst_overwrite kv s hv
  have h2 := updateScan_snd_of_present kv s h
  simp only [updateArg, h2]
  simpa [overwrite] using h1

theorem updateArg_of_absent (s : List Query) (kv : Argument)
    (h : ∀ q ∈ s, q.ID ≠ kv.Name) : updateArg s kv = s ++ [⟨kv.Name, kv.Value⟩] := by
  simp [updateArg, updateScan_of_absent kv s h]

theorem overwrite_ID (kv : Argument) (q : Query) : (overwrite kv q).ID = q.ID := by
  unfold overwrite
  split <;> rfl

theorem overwriteAll_ID (args : Arguments) (q : Query) : (overwriteAll args q).ID = q.ID := by
  induction args generalizing q with
  | nil => rfl
  | cons a t ih =>
    show (overwriteAll t (overwrite a q)).ID = q.ID
    rw [ih, overwrite_ID]

theorem overwriteAll_cons (a : Argument) (t : Arguments) (q : Query) :
    overwriteAll (a :: t) q = overwriteAll t (overwrite a q) := rfl

/-- The names of `s` are kept by one step, and the argument's name is there after it. -/
theorem updateArg_names (s : List Query) (kv : Argument) (hv : kv.Value ≠ "") :
    (∀ name, (∃ q ∈ s, q.ID = name) → ∃ q ∈ updateArg s kv, q.ID = name) ∧
    ∃ q ∈ updateArg s kv, q.ID = kv.Name := by
  by_cases h : ∃ q ∈ s, q.ID = kv.Name
  · rw [updateArg_of_present s kv hv h]
    have keep : ∀ name, (∃ q ∈ s, q.ID = name) → ∃ q ∈ s.map (overwrite kv), q.ID = name := by
      rintro name ⟨q, hq, hn⟩
      exact ⟨overwrite kv q, List.mem_map.mpr ⟨q, hq, rfl⟩, by rw [overwrite_ID, hn]⟩
    exact ⟨keep, keep _ h⟩
  · have habs : ∀ q ∈ s, q.ID ≠ kv.Name := fun q hq hn => h ⟨q, hq, hn⟩
    rw [updateArg_of_absent s kv habs]
    constructor
    · rintro name ⟨q, hq, hn⟩
      exact ⟨q, by simp [hq], hn⟩
    · exact ⟨⟨kv.Name, kv.Value⟩, by simp, rfl⟩

/-- After a pass over `args`, every name of `args` is a key of the list. -/
theorem foldl_updateArg_names (args : Arguments) (s : List Query)
    (hv : ∀ a ∈ args, a.Value ≠ "") :
    (∀ name, (∃ q ∈ s, q.ID = name) → ∃ q ∈ args.foldl updateArg s, q.ID = name) ∧
    ∀ a ∈ args, ∃ q ∈ args.foldl updateArg s, q.ID = a.Name := by
  induction args generalizing s with
  | nil => exact ⟨fun _ h => h, by simp⟩
  | cons b t ih =>
    have hb : b.Value ≠ "" := hv b (by simp)
    have ht : ∀ a ∈ t, a.Value ≠ "" := fun a ha => hv a (by simp [ha])
    obtain ⟨k1, k2⟩ := updateArg_names s b hb
    obtain ⟨i1, i2⟩ := ih (updateArg s b) ht
    refine ⟨fun name h => i1 name (k1 name h), ?_⟩
    intro a ha
    rcases List.mem_cons.mp ha with e | e
    · subst e
      exact i1 _ k2
    · exact i2 a e

/-- On a list that holds every name of `args`, a pass is a map. -/
theorem foldl_updateArg_of_present (args : Arguments) (s : List Query)
    (hv : ∀ a ∈ args, a.Value ≠ "")
    (hp : ∀ a ∈ args, ∃ q ∈ s, q.ID = a.Name) :
    args.foldl updateArg s = s.map (overwriteAll args) := by
  induction args generalizing s with
  | nil =>
    have hid : overwriteAll [] = id := funext fun _ => rfl
    simp [hid]
  | cons b t ih =>
    have hb : b.Value ≠ "" := hv b (by simp)
    have ht : ∀ a ∈ t, a.Value ≠ "" := fun a ha => hv a (by simp [ha])
    have hpb := hp b (by simp)
    have hpt : ∀ a ∈ t, ∃ q ∈ s.map (overwrite b), q.ID = a.Name := by
      intro a ha
      obtain ⟨q, hq, hn⟩ := hp a (by simp [ha])
      exact ⟨overwrite b q, List.mem_map.mpr ⟨q, hq, rfl⟩, by rw [overwrite_ID, hn]⟩
    rw [List.foldl_cons, updateArg_of_present s b hb hpb, ih _ ht hpt, List.map_map]
    rfl

/-- A record whose ID is not the argument's name was in the list before the step. -/
theorem mem_of_mem_updateArg (s : List Query) (kv : Argument) (hv : kv.Value ≠ "")
    (q : Query) (hq : q ∈ updateArg s kv) (hn : q.ID ≠ kv.Name) : q ∈ s := by
  by_cases h : ∃ p ∈ s, p.ID = kv.Name
  · rw [updateArg_of_present s kv hv h] at hq
    obtain ⟨p, hp, hpq⟩ := List.mem_map.mp hq
    by_cases e : p.ID = kv.Name
    · exact absurd (by rw [← hpq, overwrite_ID, e]) hn
    · have : overwrite kv p = p := by simp [overwrite, e]
      rw [this] at hpq
      exact hpq ▸ hp
  · have habs : ∀ p ∈ s, p.ID ≠ kv.Name := fun p hp hpn => h ⟨p, hp, hpn⟩
    rw [updateArg_of_absent s kv habs] at hq
    rcases List.mem_append.mp hq with e | e
    · exact e
    · simp at e
      exact absurd (by rw [e]) hn

/-- A record with the argument's name has the argument's value after the step. -/
theorem value_of_mem_updateArg (s : List Query) (kv : Argument) (hv : kv.Value ≠ "")
    (q : Query) (hq : q ∈ updateArg s kv) (hn : q.ID = kv.Name) : q.Value = kv.Value := by
  by_cases h : ∃ p ∈ s, p.ID = kv.Name
  · rw [updateArg_of_present s kv hv h] at hq
    obtain ⟨p, hp, hpq⟩ := List.mem_map.mp hq
    have e : p.ID = kv.Name := by rw [← overwrite_ID kv p, hpq, hn]
    rw [← hpq]
    simp [overwrite, e]
  · have habs : ∀ p ∈ s, p.ID ≠ kv.Name := fun p hp hpn => h ⟨p, hp, hpn⟩
    rw [updateArg_of_absent s kv habs] at hq
    rcases List.mem_append.mp hq with e | e
    · exact absurd hn (habs q e)
    · simp at e
      rw [e]

/-- A record whose ID is no name of `args` was in the list before the pass. -/
theorem mem_of_mem_foldl_updateArg (args : Arguments) (s : List Query)
    (hv : ∀ a ∈ args, a.Value ≠ "") (q : Query) (hq : q ∈ args.foldl updateArg s)
    (hn : ∀ a ∈ args, q.ID ≠ a.Name) : q ∈ s := by
  induction args generalizing s with
  | nil => simpa using hq
  | cons b t ih =>
    have hb : b.Value ≠ "" := hv b (by simp)
    have ht : ∀ a ∈ t, a.Value ≠ "" := fun a ha => hv a (by simp [ha])
    have h1 := ih (updateArg s b) ht hq (fun a ha => hn a (by simp [ha]))
    exact mem_of_mem_updateArg s b hb q h1 (hn b (by simp))

/-- A record with no name of `args` is left alone by the overwrites of `args`. -/
theorem overwriteAll_of_absent (args : Arguments) (q : Query)
    (hn : ∀ a ∈ args, q.ID ≠ a.Name) : overwriteAll args q = q := by
  induction args generalizing q with
  | nil => rfl
  | cons b t ih =>
    have hb : q.ID ≠ b.Name := hn b (by simp)
    have : overwrite b q = q := by simp [overwrite, hb]
    rw [overwriteAll_cons, this]
    exact ih q (fun a ha => hn a (by simp [ha]))

/-- When some argument of `args` has the record's name, the overwrites of `args`
forget the value the record came with. -/
theorem overwriteAll_of_present (args : Arguments) (k : String) (v w : Bytes)
    (hp : ∃ a ∈ args, a.Name = k) :
    overwriteAll args ⟨k, v⟩ = overwriteAll args ⟨k, w⟩ := by
  induction args generalizing v w with
  | nil => simp at hp
  | cons b t ih =>
    rw [overwriteAll_cons, overwriteAll_cons]
    by_cases e : b.Name = k
    · have h1 : overwrite b ⟨k, v⟩ = ⟨k, b.Value⟩ := by simp [overwrite, e]
      have h2 : overwrite b ⟨k, w⟩ = ⟨k, b.Value⟩ := by simp [overwrite, e]
      rw [h1, h2]
    · have e2 : ¬ k = b.Name := fun x => e x.symm
      have h1 : overwrite b ⟨k, v⟩ = ⟨k, v⟩ := by simp [overwrite, e2]
      have h2 : overwrite b ⟨k, w⟩ = ⟨k, w⟩ := by simp [overwrite, e2]
      rw [h1, h2]
      obtain ⟨a, ha, han⟩ := hp
      rcases List.mem_cons.mp ha with x | x
      · exact absurd (x ▸ han) e
      · exact ih v w ⟨a, x, han⟩

/-- The records a pass leaves are fixed by the overwrites of the same arguments. -/
theorem overwriteAll_fixes_pass (args : Arguments) (s : List Query)
    (hv : ∀ a ∈ args, a.Value ≠ "") (q : Query) (hq : q ∈ args.foldl updateArg s) :
    overwriteAll args q = q := by
  induction args generalizing s with
  | nil => rfl
  | cons b t ih =>
    have hb : b.Value ≠ "" := hv b (by simp)
    have ht : ∀ a ∈ t, a.Value ≠ "" := fun a ha => hv a (by simp [ha])
    have hq2 : q ∈ t.foldl updateArg (updateArg s b) := hq
    have ih2 := ih (updateArg s b) ht hq2
    rw [overwriteAll_cons]
    by_cases e : q.ID = b.Name
    · by_cases hp : ∃ a ∈ t, a.Name = q.ID
      · have h1 : overwrite b q = ⟨q.ID, b.Value⟩ := by simp [overwrite, e]
        rw [h1, overwriteAll_of_present t q.ID b.Value q.Value hp]
        exact ih2
      · have hn : ∀ a ∈ t, q.ID ≠ a.Name := fun a ha x => hp ⟨a, ha, x.symm⟩
        have hmem := mem_of_mem_foldl_updateArg t (updateArg s b) ht q hq2 hn
        have hval := value_of_mem_updateArg s b hb q hmem e
        have h1 : overwrite b q = q := by
          cases q with
          | mk i v =>
            simp only at e hval
            simp [overwrite, e, hval]
        rw [h1]
        exact ih2
    · have h1 : overwrite b q = q := by simp [overwrite, e]
      rw [h1]
      exact ih2

/-- C19. `QueryData.Update` is idempotent on non-empty values: for every record
list (duplicate IDs allowed) and every argument list whose values are all
non-empty, applying Update with the arguments twice gives the record list one
application gives.  The restriction is needed: on the list `[(k,v0),(k,v1)]` the
argument `(k,"")` erases one record at the first application and the other at
the second. -/
theorem querydata_update_idempotent :
    (∀ (cs : QueryData) (args : Arguments), (∀ a ∈ args, a.Value ≠ "") →
      (cs.Update args).Update args = cs.Update args) ∧
    (QueryData.mk [⟨"k", "v0"⟩, ⟨"k", "v1"⟩]).Update [⟨"k", ""⟩] = ⟨[⟨"k", "v1"⟩]⟩ ∧
    ((QueryData.mk [⟨"k", "v0"⟩, ⟨"k", "v1"⟩]).Update [⟨"k", ""⟩]).Update [⟨"k", ""⟩] =
      ⟨[]⟩ := by
  refine ⟨?_, by decide, by decide⟩
  intro cs args hv
  simp only [QueryData.Update]
  congr 1
  have hnames := (foldl_updateArg_names args cs.Storage hv).2
  rw [foldl_updateArg_of_present args _ hv hnames]
  conv_rhs => rw [← List.map_id (args.foldl updateArg cs.Storage)]
  apply List.map_congr_left
  intro q hq
  exact overwriteAll_fixes_pass args cs.Storage hv q hq

/-- Witness of C19: a repeated name and a new key, applied twice. -/
theorem querydata_update_idempotent_witness :
    ((QueryData.mk [⟨"k", "v0"⟩, ⟨"k", "v1"⟩]).Update
        [⟨"k", "a"⟩, ⟨"k2", "b"⟩, ⟨"k", "c"⟩]).Update
        [⟨"k", "a"⟩, ⟨"k2", "b"⟩, ⟨"k", "c"⟩] =
      (QueryData.mk [⟨"k", "v0"⟩, ⟨"k", "v1"⟩]).Update
        [⟨"k", "a"⟩, ⟨"k2", "b"⟩, ⟨"k", "c"⟩] :=
  querydata_update_idempotent.1 ⟨[⟨"k", "v0"⟩, ⟨"k", "v1"⟩]⟩
    [⟨"k", "a"⟩, ⟨"k2", "b"⟩, ⟨"k", "c"⟩] (by decide)


/-! ## Update on a record that breaks the pairing -/

/-- C20. Invoke "update" of the access-right contract is not safe on a record that
breaks the pairing of `Ids` and `Access`: when the id occurs in `Ids` first at an
index that is not below `len(Access)` (so `len(Access) < len(Ids)`), the write
`ar.Access[idx] = nar` is out of range and the call panics; it returns neither the
not-found error nor an Update.  Spawn can store such a record: it writes the raw
`ar` argument as the value of the new instance, without decoding it. -/
theorem update_panics_on_unpaired_record (X : Externals) (c : ContractAccessRight)
    (rst : ReadOnlyStateTrie) (inst : Instruction) (coins : List Coin) (iv : Invoke)
    (vals : Values) (r : AccessRight)
    (hget : rst.GetValues inst.InstanceID = .ok vals)
    (hinv : inst.Invoke = some iv) (hcmd : iv.Command = "update")
    (hdec : X.DecodeAccessRight vals.value = .ok r)
    (hmem : iv.Args.Search "id" ∈ r.Ids)
    (hshort : r.Access.length ≤ r.Ids.indexOf (iv.Args.Search "id")) :
    r.Access.length < r.Ids.length ∧
    ContractAccessRight.Invoke X c rst inst coins = (c, .goPanic) ∧
    (∀ out : Ret, (ContractAccessRight.Invoke X c rst inst coins).2 ≠ .ret out) ∧
    (∀ (c2 : ContractAccessRight) (rst2 : ReadOnlyStateTrie) (inst2 : Instruction)
      (sp : Spawn) (vals2 : Values),
      rst2.GetValues inst2.InstanceID = .ok vals2 → inst2.Spawn = some sp →
      ContractAccessRight.Spawn X c2 rst2 inst2 coins =
        (c2, .ret ⟨[⟨.Create, X.DeriveID inst2 "", ContractAccessRightID,
          sp.Args.Search "ar", vals2.darcID⟩], coins, none⟩)) := by
  have hpanic : ContractAccessRight.Invoke X c rst inst coins = (c, .goPanic) := by
    rw [invoke_update_eq X c rst inst coins iv vals r hget hinv hcmd hdec, if_pos hmem,
      if_neg (Nat.not_lt.mpr hshort)]
  refine ⟨Nat.lt_of_le_of_lt hshort (List.indexOf_lt_length.mpr hmem), hpanic, ?_, ?_⟩
  · intro out h
    rw [hpanic] at h
    exact Outcome.noConfusion h
  · intro c2 rst2 inst2 sp vals2 hg hs
    simp [ContractAccessRight.Spawn, hg, hs, NewStateChange]

/-- Witness of C20: a Spawn with the raw payload `u1|` creates an instance holding
it, and "update" of `u1` on the record that payload decodes to, one id and no
access entry, panics. -/
theorem update_panics_on_unpaired_record_witness :
    ContractAccessRight.Spawn demoBrokenX demoAR demoRst (demoSpawnAR [⟨"ar", "u1|"⟩])
        demoCoins =
      (demoAR, .ret ⟨[⟨.Create, "derived/inst1", "accessright", "u1|", "darc1"⟩],
        demoCoins, none⟩) ∧
    demoBrokenX.DecodeAccessRight "u1|" = .ok ⟨["u1"], []⟩ ∧
    ContractAccessRight.Invoke demoBrokenX demoAR demoBrokenRst
        (demoInvoke "update" [⟨"id", "u1"⟩, ⟨"ar", "write"⟩]) demoCoins =
      (demoAR, .goPanic) :=
  ⟨by decide, rfl,
    (update_panics_on_unpaired_record demoBrokenX demoAR demoBrokenRst
      (demoInvoke "update" [⟨"id", "u1"⟩, ⟨"ar", "write"⟩]) demoCoins
      ⟨"accessright", "update", [⟨"id", "u1"⟩, ⟨"ar", "write"⟩]⟩ demoBrokenVals
      ⟨["u1"], []⟩ rfl rfl rfl rfl (by decide) (by decide)).2.1⟩

end Medchain
